import Mathlib

/-!
# DataRingRepo: a timestamp-indexed ring buffer

Shallow embedding of `src/data_ring_repo.h` (class template `DataRingRepo<DataType>`).

Modelling conventions

* `double` timestamps are elements of an arbitrary linearly ordered commutative ring `α`
  (no NaN, no infinity); comparisons of timestamps are exact, as they are on doubles. Concrete
  runs use `ℤ`, counting timestamps in tenths of a second where the scenario has a fractional
  query.
* A subtraction of doubles rounds its result: the difference `a - b` that the source computes is
  `Rounding.fl (a - b)`, the exact difference rounded to a double (`std::fabs` is exact). On `ℤ`
  the rounding is that of binary64, to the nearest value with 53 significant bits, a tie going
  to the even significand (`binary64_round`); integers below `2^53` in magnitude are not changed
  by it. The general statements assume of the rounding only what `lawful_rounding` says.
* `size_t` values are natural numbers; a `size_t` subtraction wraps modulo `2^64`
  (`size_t_sub`), sums of indices are far below `2^64` and are taken exactly.
* `int` values (`_head_at`, `data_idx`, `start_at`, `end_at`) are integers; they stay in
  `[-1, _max_size]`, a range taken to fit an `int`, and the conversions between `int` and
  `size_t` are explicit (`to_size_t`, `to_int`).
* `std::shared_ptr<DataType>` is `Option (DataType α)`, `none` being the null pointer.
* Loops that the source does not bound (`bubble_sort`, the recursion of `binary_search`) take a
  fuel argument: the number of iterations (recursive calls) that may be executed.
* Reading `_data[i]` with `i ≥ _max_size` in `binary_search` is reported as `out_of_bounds i`.
* With `_max_size = 0` the `% _max_size` of the source divides by zero; the statements about the
  operations take a capacity of at least 1.
-/

set_option autoImplicit false

/-! ## Data model -/

/-- A sample: the template parameter `DataType`, any record with a `timestamp` field. -/
structure DataType (α : Type) where
  timestamp : α
  payload : Nat
deriving DecidableEq, Repr

/-- The slot type `std::pair<double, std::shared_ptr<DataType>>`. -/
structure DataPair (α : Type) where
  first : α
  second : Option (DataType α)
deriving DecidableEq, Repr

/-- The members of `DataRingRepo` (the mutex is left out). -/
structure DataRingRepo (α : Type) where
  _max_size : Nat
  _data : List (DataPair α)
  _size : Nat
  _head_at : Int
  _is_full : Bool
deriving DecidableEq, Repr

/-- Result of a search: a value, a read outside the array, or fuel exhausted. -/
inductive Outcome (β : Type) where
  | ok (val : β)
  | out_of_bounds (idx : Nat)
  | out_of_fuel
deriving DecidableEq, Repr

/-- Number of `size_t` values, `2^64`. -/
def SIZE_T_RANGE : Nat := 18446744073709551616

/-- Subtraction of `size_t` operands: the difference modulo `2^64`. -/
def size_t_sub (a b : Nat) : Nat := if b ≤ a then a - b else a + SIZE_T_RANGE - b

/-- Conversion `int → size_t`: the value modulo `2^64`. -/
def to_size_t (i : Int) : Nat := if 0 ≤ i then i.toNat else (i + SIZE_T_RANGE).toNat

/-- Conversion `size_t → int`, value preserving on indices. -/
def to_int (n : Nat) : Int := n

/-! ## Rounding of `double` subtraction -/

/-- Arithmetic of `double`: `fl x` is the double that a subtraction with the exact result `x`
yields (round to nearest, ties to even). -/
class Rounding (α : Type) where
  fl : α → α

/-- The properties of the rounding that the proofs use: it is monotone, odd, and zero only at
zero (the difference of two distinct doubles is not rounded to zero). -/
def lawful_rounding (α : Type) [LinearOrderedCommRing α] [Rounding α] : Prop :=
  (∀ a b : α, a ≤ b → Rounding.fl a ≤ Rounding.fl b) ∧
    (∀ a : α, Rounding.fl (-a) = -Rounding.fl a) ∧
    (∀ a : α, Rounding.fl a = 0 → a = 0)

/-- Exponent of the unit in the last place of a natural number `n` in binary64 (53 significant
bits): the number of halvings that bring `n` below `2^53`; the first argument bounds the
recursion and is taken as `n`. -/
def ulp_exp : Nat → Nat → Nat
  | 0, _ => 0
  | f + 1, n => if n < 2 ^ 53 then 0 else ulp_exp f (n / 2) + 1

/-- The multiple of `g` nearest to `n`, a tie going to the even multiple. -/
def round_to_multiple (g n : Nat) : Nat :=
  g * (if 2 * (n % g) < g then n / g
    else if g < 2 * (n % g) then n / g + 1
    else n / g + (n / g) % 2)

/-- The binary64 value nearest to the natural number `n` (the exponent range is not bounded). -/
def binary64_round_nat (n : Nat) : Nat := round_to_multiple (2 ^ ulp_exp n n) n

/-- The binary64 value nearest to the integer `x`. -/
def binary64_round (x : Int) : Int :=
  if 0 ≤ x then (binary64_round_nat x.toNat : Int) else -(binary64_round_nat (-x).toNat : Int)

/-- On `ℤ` the rounding is that of binary64. -/
instance : Rounding ℤ := ⟨binary64_round⟩

/-! ## The methods -/

section Model

variable {α : Type} [LinearOrderedCommRing α]

/-- A value-initialised slot, as `new DataPair[max_size]` creates it. -/
def DataPair.empty : DataPair α := ⟨0, none⟩

/-- The slot content that `insert_data` writes for the sample `d`. -/
def DataPair.of (d : DataType α) : DataPair α := ⟨d.timestamp, some d⟩

namespace DataRingRepo

/-- Constructor `DataRingRepo(max_size)`. -/
def new (max_size : Nat) : DataRingRepo α :=
  ⟨max_size, List.replicate max_size DataPair.empty, 0, -1, false⟩

/-- Element access `_data[i]` for an index inside the array. -/
def slot (s : DataRingRepo α) (i : Nat) : DataPair α := s._data.getD i DataPair.empty

/-- Accessor `max_size()`. -/
def max_size (s : DataRingRepo α) : Nat := s._max_size

/-- Accessor `size()`. -/
def size (s : DataRingRepo α) : Nat := s._size

/-- Accessor `is_empty()`. -/
def is_empty (s : DataRingRepo α) : Bool := decide (s._head_at < 0)

/-- Accessor `is_full()`. -/
def is_full (s : DataRingRepo α) : Bool := s._is_full

/-- Method `clear()`. -/
def clear (s : DataRingRepo α) : DataRingRepo α :=
  ⟨s._max_size, s._data, 0, -1, false⟩

/-- The `while` loop of `bubble_sort` on the array `data` with loop variable `bubble_at`;
`none` when the loop has not exited after `fuel` iterations. -/
def bubble_loop (max_size top_at : Nat) :
    Nat → List (DataPair α) → Nat → Option (List (DataPair α))
  | 0, _, _ => none
  | fuel + 1, data, bubble_at =>
    if bubble_at = top_at then some data
    else
      let comp_at := size_t_sub bubble_at 1 % max_size
      if (data.getD bubble_at DataPair.empty).first < (data.getD comp_at DataPair.empty).first then
        bubble_loop max_size top_at fuel
          ((data.set bubble_at (data.getD comp_at DataPair.empty)).set comp_at
            (data.getD bubble_at DataPair.empty)) comp_at
      else some data

/-- Method `bubble_sort()`. -/
def bubble_sort (fuel : Nat) (s : DataRingRepo α) : Option (DataRingRepo α) :=
  let bubble_at := to_size_t s._head_at
  let top_at := if s._is_full then to_size_t (s._head_at + 1) % s._max_size else 0
  (bubble_loop s._max_size top_at fuel s._data bubble_at).map
    (fun d => ⟨s._max_size, d, s._size, s._head_at, s._is_full⟩)

/-- The part of `insert_data` before the call of `bubble_sort`: counters and the new slot. -/
def store (s : DataRingRepo α) (data : DataType α) : DataRingRepo α :=
  let head1 : Int := s._head_at + 1
  let size1 : Nat := min (s._size + 1) s._max_size
  let full1 : Bool :=
    if (!s._is_full && decide (size_t_sub s._max_size 1 ≤ to_size_t head1)) then true
    else s._is_full
  let head2 : Int := to_int (to_size_t head1 % s._max_size)
  ⟨s._max_size, s._data.set head2.toNat ⟨data.timestamp, some data⟩, size1, head2, full1⟩

/-- Method `insert_data(data)`. -/
def insert_data (fuel : Nat) (s : DataRingRepo α) (data : DataType α) :
    Option (DataRingRepo α) :=
  bubble_sort fuel (store s data)

/-- Method `get_latest_data_lock_free(data_ptr)`: the return value and `data_ptr`. -/
def get_latest_data_lock_free (s : DataRingRepo α) : Bool × Option (DataType α) :=
  if s._head_at < 0 then (false, none)
  else (true, (s.slot s._head_at.toNat).second)

/-- Method `get_latest_data(data_ptr)`. -/
def get_latest_data (s : DataRingRepo α) : Bool × Option (DataType α) :=
  s.get_latest_data_lock_free

/-- Method `binary_search(timestamp, low, high)`; fuel bounds the recursion depth. The two
differences of the base case are rounded, as every `double` subtraction is. -/
def binary_search [Rounding α] (s : DataRingRepo α) (timestamp : α) :
    Nat → Nat → Nat → Outcome Nat
  | 0, _, _ => .out_of_fuel
  | fuel + 1, low, high0 =>
    let high := if high0 < low then high0 + s._max_size else high0
    if low = size_t_sub high 1 then
      match s._data[low]?, s._data[high]? with
      | some a, some b =>
        .ok (if |Rounding.fl (a.first - timestamp)| ≤ |Rounding.fl (b.first - timestamp)|
          then low else high)
      | none, _ => .out_of_bounds low
      | some _, none => .out_of_bounds high
    else
      let mid := ((low + high) / 2) % s._max_size
      match s._data[mid]? with
      | none => .out_of_bounds mid
      | some m =>
        if m.first > timestamp then binary_search s timestamp fuel low mid
        else binary_search s timestamp fuel mid (high % s._max_size)

/-- Method `get_closest_data_lock_free(timestamp, data_idx)`: the return value and `data_idx`. -/
def get_closest_data_lock_free [Rounding α] (fuel : Nat) (s : DataRingRepo α)
    (timestamp : α) :
    Outcome (Bool × Int) :=
  if s._head_at < 0 then .ok (false, -1)
  else
    let low := if s._is_full then to_size_t (s._head_at + 1) % s._max_size else 0
    let high := to_size_t s._head_at
    if (s.slot low).first > timestamp then .ok (false, to_int low)
    else if (s.slot high).first < timestamp then .ok (false, to_int high)
    else
      match s.binary_search timestamp fuel low high with
      | .ok idx => .ok (true, to_int idx)
      | .out_of_bounds i => .out_of_bounds i
      | .out_of_fuel => .out_of_fuel

/-- Method `get_closest_data(timestamp, data_ptr)`: the return value and `data_ptr`. -/
def get_closest_data [Rounding α] (fuel : Nat) (s : DataRingRepo α) (timestamp : α) :
    Outcome (Bool × Option (DataType α)) :=
  match s.get_closest_data_lock_free fuel timestamp with
  | .ok (true, data_idx) =>
    match s._data[to_size_t data_idx]? with
    | some p => .ok (true, p.second)
    | none => .out_of_bounds (to_size_t data_idx)
  | .ok (false, _) => .ok (false, none)
  | .out_of_bounds i => .out_of_bounds i
  | .out_of_fuel => .out_of_fuel

/-- The `while (search_at <= search_end)` loop of the period queries, run for `n` iterations
(the caller passes `search_end + 1 - search_at`, the number of iterations the loop makes). -/
def period_loop (s : DataRingRepo α) (search_end : Nat) :
    Nat → Nat → List (Option (DataType α)) → List (Option (DataType α))
  | 0, _, vec => vec
  | n + 1, search_at, vec =>
    if search_at ≤ search_end then
      period_loop s search_end n (search_at + 1) (vec ++ [(s.slot (search_at % s._max_size)).second])
    else vec

/-- Method `get_period_data(start_timestamp, end_timestamp, data_ptr_vec)`: the return value and
the vector; `vec0` is the content of `data_ptr_vec` before the call. -/
def get_period_data [Rounding α] (fuel : Nat) (s : DataRingRepo α)
    (start_timestamp end_timestamp : α) (_vec0 : List (Option (DataType α))) :
    Outcome (Bool × List (Option (DataType α))) :=
  match s.get_closest_data_lock_free fuel start_timestamp with
  | .out_of_bounds i => .out_of_bounds i
  | .out_of_fuel => .out_of_fuel
  | .ok (false, _) => .ok (false, [])
  | .ok (true, start_at) =>
    match s.get_closest_data_lock_free fuel end_timestamp with
    | .out_of_bounds i => .out_of_bounds i
    | .out_of_fuel => .out_of_fuel
    | .ok (false, _) => .ok (false, [])
    | .ok (true, end_at) =>
      let search_at := to_size_t start_at
      let search_end := if start_at > end_at then s._max_size + to_size_t end_at else to_size_t end_at
      let vec := s.period_loop search_end (search_end + 1 - search_at) search_at []
      .ok (decide (vec.length > 0), vec)

/-- Method `get_latest_period_data(start_timestamp, data_ptr_vec)`: the return value and the
vector; `vec0` is the content of `data_ptr_vec` before the call. -/
def get_latest_period_data [Rounding α] (fuel : Nat) (s : DataRingRepo α)
    (start_timestamp : α) (_vec0 : List (Option (DataType α))) :
    Outcome (Bool × List (Option (DataType α))) :=
  match s.get_closest_data_lock_free fuel start_timestamp with
  | .out_of_bounds i => .out_of_bounds i
  | .out_of_fuel => .out_of_fuel
  | .ok (false, _) => .ok (false, [])
  | .ok (true, start_at) =>
    let search_at := to_size_t start_at
    let search_end :=
      if start_at > s._head_at then s._max_size + to_size_t s._head_at else to_size_t s._head_at
    let vec := s.period_loop search_end (search_end + 1 - search_at) search_at []
    .ok (decide (vec.length > 0), vec)

/-- The slot index that `operator[](idx)` computes; the sum `_head_at + index + 1` is taken in
`size_t`, modulo `2^64`. -/
def subscript_index (s : DataRingRepo α) (idx : Nat) : Nat :=
  if s._is_full then ((to_size_t s._head_at + idx + 1) % SIZE_T_RANGE) % s._max_size
  else min idx s._size

/-- Method `operator[](idx)`: the sample `*(_data[index].second)`; `none` when the pointer that
is dereferenced is null or the slot lies outside the array. -/
def subscript (s : DataRingRepo α) (idx : Nat) : Option (DataType α) :=
  (s._data[s.subscript_index idx]?).bind DataPair.second

/-! ## The valid run -/

/-- Physical indices of the valid run, oldest to newest: `0..head` before the buffer is full,
`head+1..head` circularly afterwards. -/
def run_indices (s : DataRingRepo α) : List Nat :=
  if s._is_full then
    (List.range s._max_size).map (fun j => (s._head_at.toNat + 1 + j) % s._max_size)
  else List.range (s._head_at + 1).toNat

/-- Timestamps of the valid run, oldest to newest. -/
def run_timestamps (s : DataRingRepo α) : List α :=
  s.run_indices.map (fun i => (s.slot i).first)

/-- Samples of the valid run, oldest to newest. -/
def run_samples (s : DataRingRepo α) : List (Option (DataType α)) :=
  s.run_indices.map (fun i => (s.slot i).second)

/-- The valid run is non-decreasing in timestamp. -/
def run_sorted (s : DataRingRepo α) : Prop :=
  s.run_timestamps.Sorted (fun a b => a ≤ b)

instance (s : DataRingRepo α) : Decidable s.run_sorted := by
  unfold run_sorted; infer_instance

/-- Inserting a list of samples one by one, each call with the same fuel. -/
def insert_all (fuel : Nat) : DataRingRepo α → List (DataType α) → Option (DataRingRepo α)
  | s, [] => some s
  | s, d :: ds =>
    match insert_data fuel s d with
    | none => none
    | some s1 => insert_all fuel s1 ds

/-- Index of the oldest valid slot: `0` before the buffer is full, `(head + 1) mod capacity`
afterwards. -/
def oldest_at (s : DataRingRepo α) : Nat :=
  if s._is_full then to_size_t (s._head_at + 1) % s._max_size else 0

/-- Index of the newest valid slot, `_head_at`. -/
def newest_at (s : DataRingRepo α) : Nat := to_size_t s._head_at

/-- Timestamp stored in slot `i`. -/
def ts (s : DataRingRepo α) (i : Nat) : α := (s.slot i).first

/-- Representation invariant of a buffer object: the array has `_max_size` slots, the capacity is
positive, and the counters are those of a buffer that is not yet full (`size = head + 1`, below
the capacity) or full (`size` is the capacity, `head` an index of the array). -/
def well_formed (s : DataRingRepo α) : Prop :=
  s._data.length = s._max_size ∧ 1 ≤ s._max_size ∧
    (if s._is_full then 0 ≤ s._head_at ∧ s._head_at < s._max_size ∧ s._size = s._max_size
      else -1 ≤ s._head_at ∧ s._head_at + 1 = s._size ∧ s._size < s._max_size)

instance (s : DataRingRepo α) : Decidable s.well_formed := by
  unfold well_formed; infer_instance

/-- Buffer states reachable from construction with capacity `cap` by `insert_data` calls that
return and by `clear`. -/
inductive Reachable (cap : Nat) : DataRingRepo α → Prop where
  | init : Reachable cap (DataRingRepo.new cap)
  | insert (fuel : Nat) (s s1 : DataRingRepo α) (d : DataType α) :
      Reachable cap s → DataRingRepo.insert_data fuel s d = some s1 → Reachable cap s1
  | cleared (s : DataRingRepo α) : Reachable cap s → Reachable cap s.clear

/-- What the accessors, `get_latest_data` and the valid run show of a buffer: `size()`,
`is_empty()`, `is_full()`, the head index, the result of `get_latest_data`, and the samples and
timestamps of the valid run, oldest to newest. -/
def observation (s : DataRingRepo α) :
    Nat × Bool × Bool × Int × (Bool × Option (DataType α)) × List (Option (DataType α)) ×
      List α :=
  (s.size, s.is_empty, s.is_full, s._head_at, s.get_latest_data, s.run_samples,
    s.run_timestamps)

/-! ## Auxiliary predicates used by the proofs -/

/-- Counter values after `k` inserts into an empty buffer of capacity `cap`. -/
def counters_after (cap k : Nat) (s : DataRingRepo α) : Prop :=
  s._max_size = cap ∧ s._size = min k cap ∧
    s._head_at = (if k = 0 then -1 else (((k - 1) % cap : Nat) : Int)) ∧
    (s._is_full = true ↔ cap ≤ k)

/-- Two buffers with the same counters whose arrays agree on the first `size` slots. -/
def same_valid (s t : DataRingRepo α) : Prop :=
  well_formed s ∧ well_formed t ∧ s._max_size = t._max_size ∧ s._size = t._size ∧
    s._head_at = t._head_at ∧ s._is_full = t._is_full ∧
    s._data.take s._size = t._data.take s._size

/-- Every slot of the valid run has timestamp `0`. -/
def zero_run (s : DataRingRepo α) : Prop :=
  ∀ i : Nat, i < s._max_size → (s._is_full = true ∨ (i : Int) ≤ s._head_at) →
    (s._data.getD i DataPair.empty).first = 0

end DataRingRepo

end Model

/-! ## Concrete buffers used in the examples (timestamps in `ℤ`) -/

/-- Capacity 5 holding the timestamps 10, 20, 40 (not full, `_head_at = 2`). -/
def buffer_10_20_40 : DataRingRepo ℤ :=
  ⟨5, [⟨10, some ⟨10, 0⟩⟩, ⟨20, some ⟨20, 1⟩⟩, ⟨40, some ⟨40, 2⟩⟩, ⟨0, none⟩, ⟨0, none⟩],
    3, 2, false⟩

/-- Capacity 3 after inserting the timestamps 1, 2, 3 (full, `_head_at = 2`). -/
def buffer_1_2_3 : DataRingRepo ℤ :=
  ⟨3, [⟨1, some ⟨1, 0⟩⟩, ⟨2, some ⟨2, 1⟩⟩, ⟨3, some ⟨3, 2⟩⟩], 3, 2, true⟩

/-- The buffer `buffer_1_2_3` after one more insert, of timestamp 4. -/
def buffer_2_3_4 : DataRingRepo ℤ :=
  ⟨3, [⟨4, some ⟨4, 3⟩⟩, ⟨2, some ⟨2, 1⟩⟩, ⟨3, some ⟨3, 2⟩⟩], 3, 0, true⟩

/-- Capacity 3 after inserting the timestamps 1, 2, 5 (full, `_head_at = 2`). -/
def buffer_1_2_5 : DataRingRepo ℤ :=
  ⟨3, [⟨1, some ⟨1, 0⟩⟩, ⟨2, some ⟨2, 1⟩⟩, ⟨5, some ⟨5, 2⟩⟩], 3, 2, true⟩

/-- Capacity 3 after inserting the timestamps 1.0, 2.0, 3.0, 4.0, counted in tenths of a second:
the array is `[40, 20, 30]`, `_head_at = 0`, and the valid run 20, 30, 40 wraps past the
physical end of the array. -/
def buffer_wrapped : DataRingRepo ℤ :=
  ⟨3, [⟨40, some ⟨40, 3⟩⟩, ⟨20, some ⟨20, 1⟩⟩, ⟨30, some ⟨30, 2⟩⟩], 3, 0, true⟩

/-- Capacity 5 after inserting one sample with timestamp 1. -/
def buffer_single : DataRingRepo ℤ :=
  ⟨5, [⟨1, some ⟨1, 0⟩⟩, ⟨0, none⟩, ⟨0, none⟩, ⟨0, none⟩, ⟨0, none⟩], 1, 0, false⟩

/-- Capacity 7 after inserting the timestamps 1, 2, 3, 4, 5, 6, 7, 9 (full, `_head_at = 0`). -/
def buffer_seven : DataRingRepo ℤ :=
  ⟨7, [⟨9, some ⟨9, 7⟩⟩, ⟨2, some ⟨2, 1⟩⟩, ⟨3, some ⟨3, 2⟩⟩, ⟨4, some ⟨4, 3⟩⟩, ⟨5, some ⟨5, 4⟩⟩,
    ⟨6, some ⟨6, 5⟩⟩, ⟨7, some ⟨7, 6⟩⟩], 7, 0, true⟩

/-- Capacity 5 after inserting the timestamps 1, 2, 3 (not full, `_head_at = 2`). -/
def buffer_three_of_five : DataRingRepo ℤ :=
  ⟨5, [⟨1, some ⟨1, 0⟩⟩, ⟨2, some ⟨2, 1⟩⟩, ⟨3, some ⟨3, 2⟩⟩, ⟨0, none⟩, ⟨0, none⟩], 3, 2, false⟩

/-- Capacity 1 after inserting one sample with timestamp 1 (full, `_head_at = 0`). -/
def buffer_capacity_one : DataRingRepo ℤ :=
  ⟨1, [⟨1, some ⟨1, 0⟩⟩], 1, 0, true⟩

/-- Capacity 7 after inserting the timestamps 1, 2, 3, 4, 5, 6, 7, 9, 10 (full,
`_head_at = 1`): the valid run 3, 4, 5, 6, 7, 9, 10 starts in slot 2. -/
def buffer_seven_next : DataRingRepo ℤ :=
  ⟨7, [⟨9, some ⟨9, 7⟩⟩, ⟨10, some ⟨10, 8⟩⟩, ⟨3, some ⟨3, 2⟩⟩, ⟨4, some ⟨4, 3⟩⟩,
    ⟨5, some ⟨5, 4⟩⟩, ⟨6, some ⟨6, 5⟩⟩, ⟨7, some ⟨7, 6⟩⟩], 7, 1, true⟩

/-- Capacity 5 after inserting the timestamps `-2^60` and `2^60` (not full, `_head_at = 1`). -/
def buffer_far : DataRingRepo ℤ :=
  ⟨5, [⟨-1152921504606846976, some ⟨-1152921504606846976, 0⟩⟩,
    ⟨1152921504606846976, some ⟨1152921504606846976, 1⟩⟩, ⟨0, none⟩, ⟨0, none⟩, ⟨0, none⟩],
    2, 1, false⟩
/-! ## The rounding of binary64 on the integers -/

theorem round_to_multiple_mono (g : Nat) (hg : 0 < g) (n m : Nat) (h : n ≤ m) :
    round_to_multiple g n ≤ round_to_multiple g m := by
  unfold round_to_multiple
  apply Nat.mul_le_mul_left
  have hq : n / g ≤ m / g := Nat.div_le_div_right h
  have h1 := Nat.div_add_mod n g
  have h2 := Nat.div_add_mod m g
  have r1 : n % g < g := Nat.mod_lt _ hg
  have r2 : m % g < g := Nat.mod_lt _ hg
  rcases Nat.lt_or_eq_of_le hq with hlt | heq
  · split_ifs <;> omega
  · rw [heq] at h1 ⊢
    have hr : n % g ≤ m % g := by
      generalize g * (m / g) = p at h1 h2
      omega
    split_ifs <;> omega

theorem round_to_multiple_exact (g k : Nat) (hg : 0 < g) :
    round_to_multiple g (g * k) = g * k := by
  unfold round_to_multiple
  rw [Nat.mul_mod_right, Nat.mul_div_cancel_left k hg, if_pos (by omega)]

theorem ulp_exp_lt : ∀ (f n : Nat), n ≤ f → n < 2 ^ (53 + ulp_exp f n) := by
  intro f
  induction f with
  | zero =>
    intro n h
    have : n = 0 := by omega
    subst this
    exact Nat.pow_pos (by decide)
  | succ f ih =>
    intro n h
    unfold ulp_exp
    split
    · rename_i hlt; simpa using hlt
    · rename_i hge
      have h53 : (2:Nat) ^ 53 = 9007199254740992 := by decide
      have := ih (n / 2) (by omega)
      rw [← Nat.add_assoc, Nat.pow_succ]
      omega

theorem ulp_exp_ge : ∀ (f n : Nat), n ≤ f → 1 ≤ ulp_exp f n →
    2 ^ (52 + ulp_exp f n) ≤ n := by
  intro f
  induction f with
  | zero => intro n _ h; simp [ulp_exp] at h
  | succ f ih =>
    intro n h he
    unfold ulp_exp at he ⊢
    split at he
    · omega
    · rename_i hge
      rw [if_neg hge]
      have h53 : (2:Nat) ^ 53 = 9007199254740992 := by decide
      rcases Nat.eq_zero_or_pos (ulp_exp f (n / 2)) with h0 | hpos
      · rw [h0]
        show 2 ^ 53 ≤ n
        omega
      · have := ih (n / 2) (by omega) hpos
        rw [← Nat.add_assoc, Nat.pow_succ]
        omega

theorem binary64_round_nat_mono (n m : Nat) (h : n ≤ m) :
    binary64_round_nat n ≤ binary64_round_nat m := by
  unfold binary64_round_nat
  have hn := ulp_exp_lt n n (le_refl _)
  rcases Nat.lt_trichotomy (ulp_exp n n) (ulp_exp m m) with hlt | heq | hgt
  · -- different binades: a power of two lies between
    have hm := ulp_exp_ge m m (le_refl _) (by omega)
    have hB : 2 ^ (53 + ulp_exp n n) ≤ 2 ^ (52 + ulp_exp m m) :=
      Nat.pow_le_pow_right (by decide) (by omega)
    have e1 : (2:Nat) ^ (53 + ulp_exp n n) = 2 ^ ulp_exp n n * 2 ^ 53 := by
      rw [Nat.add_comm, Nat.pow_add]
    have e2 : (2:Nat) ^ (52 + ulp_exp m m) = 2 ^ ulp_exp m m * 2 ^ 52 := by
      rw [Nat.add_comm, Nat.pow_add]
    calc round_to_multiple (2 ^ ulp_exp n n) n
        ≤ round_to_multiple (2 ^ ulp_exp n n) (2 ^ (53 + ulp_exp n n)) :=
          round_to_multiple_mono _ (Nat.pow_pos (by decide)) _ _ (le_of_lt hn)
      _ = 2 ^ (53 + ulp_exp n n) := by
          rw [e1]; exact round_to_multiple_exact _ _ (Nat.pow_pos (by decide))
      _ ≤ 2 ^ (52 + ulp_exp m m) := hB
      _ = round_to_multiple (2 ^ ulp_exp m m) (2 ^ (52 + ulp_exp m m)) := by
          rw [e2]; exact (round_to_multiple_exact _ _ (Nat.pow_pos (by decide))).symm
      _ ≤ round_to_multiple (2 ^ ulp_exp m m) m :=
          round_to_multiple_mono _ (Nat.pow_pos (by decide)) _ _ hm
  · rw [heq]
    exact round_to_multiple_mono _ (Nat.pow_pos (by decide)) _ _ h
  · exfalso
    have hm := ulp_exp_lt m m (le_refl _)
    have hn2 := ulp_exp_ge n n (le_refl _) (by omega)
    have hB : 2 ^ (53 + ulp_exp m m) ≤ 2 ^ (52 + ulp_exp n n) :=
      Nat.pow_le_pow_right (by decide) (by omega)
    omega

theorem binary64_round_nat_zero : binary64_round_nat 0 = 0 := by decide

theorem binary64_round_nat_pos (n : Nat) (h : 1 ≤ n) : 1 ≤ binary64_round_nat n := by
  have h1 : binary64_round_nat 1 = 1 := by decide
  have := binary64_round_nat_mono 1 n h
  omega

theorem binary64_round_neg (x : Int) : binary64_round (-x) = -binary64_round x := by
  unfold binary64_round
  rcases lt_trichotomy x 0 with h | h | h
  · rw [if_pos (by omega), if_neg (by omega), neg_neg]
  · subst h
    simp [binary64_round_nat_zero]
  · rw [if_neg (by omega), if_pos (by omega), neg_neg]

theorem binary64_round_mono (x y : Int) (h : x ≤ y) : binary64_round x ≤ binary64_round y := by
  unfold binary64_round
  by_cases hx : 0 ≤ x
  · have hy : 0 ≤ y := le_trans hx h
    rw [if_pos hx, if_pos hy]
    exact Int.ofNat_le.2 (binary64_round_nat_mono _ _ (Int.toNat_le_toNat h))
  · rw [if_neg hx]
    by_cases hy : 0 ≤ y
    · rw [if_pos hy]
      have a : (0:Int) ≤ (binary64_round_nat (-x).toNat : Int) := Int.ofNat_nonneg _
      have b : (0:Int) ≤ (binary64_round_nat y.toNat : Int) := Int.ofNat_nonneg _
      omega
    · rw [if_neg hy]
      have := Int.ofNat_le.2 (binary64_round_nat_mono (-y).toNat (-x).toNat
        (Int.toNat_le_toNat (by omega)))
      omega

theorem binary64_round_eq_zero (x : Int) (h : binary64_round x = 0) : x = 0 := by
  unfold binary64_round at h
  by_contra hx
  by_cases h0 : 0 ≤ x
  · rw [if_pos h0] at h
    have := binary64_round_nat_pos x.toNat (by omega)
    omega
  · rw [if_neg h0] at h
    have := binary64_round_nat_pos (-x).toNat (by omega)
    omega

/-- The rounding of binary64 on the integers has the properties the proofs use. -/
theorem binary64_lawful : lawful_rounding ℤ :=
  ⟨binary64_round_mono, binary64_round_neg, binary64_round_eq_zero⟩


/-- Integers below `2^53` in magnitude are not changed by the rounding. -/
theorem binary64_round_exact (x : Int) (h : |x| < 2 ^ 53) : binary64_round x = x := by
  have key : ∀ n : Nat, n < 2 ^ 53 → binary64_round_nat n = n := by
    intro n hn
    have he : ulp_exp n n = 0 := by
      cases n with
      | zero => rfl
      | succ k =>
        unfold ulp_exp
        rw [if_pos hn]
    unfold binary64_round_nat round_to_multiple
    rw [he]
    simp [Nat.mod_one]
  have h53 : (2:Int) ^ 53 = 9007199254740992 := by decide
  have hn53 : (2:Nat) ^ 53 = 9007199254740992 := by decide
  rw [h53] at h
  unfold binary64_round
  by_cases hx : 0 ≤ x
  · rw [if_pos hx, key x.toNat (by rw [abs_of_nonneg hx] at h; omega)]
    omega
  · rw [if_neg hx, key (-x).toNat (by rw [abs_of_neg (by omega)] at h; omega)]
    omega


section Proofs

set_option linter.unusedSectionVars false

variable {α : Type} [LinearOrderedCommRing α]

namespace DataRingRepo

/-! ## Machine arithmetic -/

theorem size_t_sub_eq_mod (a b : Nat) (ha : a < SIZE_T_RANGE) (hb : b < SIZE_T_RANGE) :
    size_t_sub a b = (a + SIZE_T_RANGE - b) % SIZE_T_RANGE := by
  unfold size_t_sub SIZE_T_RANGE at *
  split <;> omega

theorem size_t_sub_one_pos (a : Nat) (ha : 0 < a) : size_t_sub a 1 = a - 1 := by
  unfold size_t_sub
  rw [if_pos (show 1 ≤ a from ha)]

theorem to_size_t_ofNat (n : Nat) : to_size_t (n : Int) = n := by
  unfold to_size_t
  simp

theorem to_size_t_succ (n : Nat) : to_size_t ((n : Int) + 1) = n + 1 := by
  have h : ((n : Int) + 1) = ((n + 1 : Nat) : Int) := by push_cast; rfl
  rw [h, to_size_t_ofNat]

/-! ## Counters -/

theorem bubble_sort_counters {fuel : Nat} {s s1 : DataRingRepo α}
    (h : bubble_sort fuel s = some s1) :
    s1._max_size = s._max_size ∧ s1._size = s._size ∧ s1._head_at = s._head_at ∧
      s1._is_full = s._is_full := by
  unfold bubble_sort at h
  simp only [Option.map_eq_some'] at h
  obtain ⟨d, -, rfl⟩ := h
  exact ⟨rfl, rfl, rfl, rfl⟩

theorem store_max_size (s : DataRingRepo α) (d : DataType α) :
    (store s d)._max_size = s._max_size := rfl

theorem store_size (s : DataRingRepo α) (d : DataType α) :
    (store s d)._size = min (s._size + 1) s._max_size := rfl

theorem store_head_at (s : DataRingRepo α) (d : DataType α) :
    (store s d)._head_at = ((to_size_t (s._head_at + 1) % s._max_size : Nat) : Int) := rfl

theorem store_is_full (s : DataRingRepo α) (d : DataType α) :
    (store s d)._is_full = true ↔
      (s._is_full = true ∨ size_t_sub s._max_size 1 ≤ to_size_t (s._head_at + 1)) := by
  unfold store
  cases h : s._is_full <;> simp

theorem store_counters {cap k : Nat} (hcap : 1 ≤ cap) {s : DataRingRepo α}
    (h : counters_after cap k s) (d : DataType α) : counters_after cap (k + 1) (store s d) := by
  obtain ⟨h1, h2, h3, h4⟩ := h
  have hsub : size_t_sub cap 1 = cap - 1 := size_t_sub_one_pos cap hcap
  have hhead : to_size_t (s._head_at + 1) = if k = 0 then 0 else (k - 1) % cap + 1 := by
    rw [h3]
    by_cases hk : k = 0
    · simp [hk, to_size_t]
    · simp only [hk, if_false]
      exact to_size_t_succ _
  have hlt : (k - 1) % cap < cap := Nat.mod_lt _ hcap
  refine ⟨by rw [store_max_size, h1], ?_, ?_, ?_⟩
  · rw [store_size, h1, h2]; omega
  · rw [store_head_at, hhead, h1]
    simp only [Nat.add_sub_cancel, Nat.succ_ne_zero, if_false]
    by_cases hk : k = 0
    · simp [hk]
    · simp only [hk, if_false]
      congr 1
      have hk1 : k = (k - 1) + 1 := by omega
      conv_rhs => rw [hk1]
      rw [Nat.add_mod (k - 1) 1 cap, Nat.add_mod ((k - 1) % cap) 1 cap, Nat.mod_mod]
  · rw [store_is_full, hhead, h1, hsub, h4]
    by_cases hk : k = 0
    · simp only [hk, if_true]; omega
    · simp only [hk, if_false]
      by_cases hck : cap ≤ k
      · omega
      · have hk1 : (k - 1) % cap = k - 1 := Nat.mod_eq_of_lt (by omega)
        omega

theorem insert_data_counters {cap k fuel : Nat} (hcap : 1 ≤ cap) {s s1 : DataRingRepo α}
    (h : counters_after cap k s) {d : DataType α} (hi : insert_data fuel s d = some s1) :
    counters_after cap (k + 1) s1 := by
  obtain ⟨e1, e2, e3, e4⟩ := bubble_sort_counters hi
  obtain ⟨c1, c2, c3, c4⟩ := store_counters hcap h d
  exact ⟨by rw [e1, c1], by rw [e2, c2], by rw [e3, c3], by rw [e4, c4]⟩

theorem insert_all_counters {cap fuel : Nat} (hcap : 1 ≤ cap) (xs : List (DataType α)) :
    ∀ (k : Nat) (s s1 : DataRingRepo α), counters_after cap k s →
      insert_all fuel s xs = some s1 → counters_after cap (k + xs.length) s1 := by
  induction xs with
  | nil =>
    intro k s s1 h hi
    simp only [insert_all, Option.some.injEq] at hi
    subst hi
    simpa using h
  | cons d ds ih =>
    intro k s s1 h hi
    simp only [insert_all] at hi
    cases hd : insert_data fuel s d with
    | none => rw [hd] at hi; cases hi
    | some s2 =>
      rw [hd] at hi
      have := ih (k + 1) s2 s1 (insert_data_counters hcap h hd) hi
      simpa [Nat.add_assoc, Nat.add_comm 1] using this

theorem counters_after_new (cap : Nat) (hcap : 1 ≤ cap) :
    counters_after cap 0 (DataRingRepo.new cap : DataRingRepo α) := by
  refine ⟨rfl, ?_, rfl, ?_⟩
  · simp [DataRingRepo.new]
  · simp [DataRingRepo.new]; omega

theorem counters_after_clear (b : DataRingRepo α) (hcap : 1 ≤ b._max_size) :
    counters_after b._max_size 0 b.clear := by
  refine ⟨rfl, ?_, rfl, ?_⟩
  · simp [clear]
  · simp [clear]; omega

theorem bubble_loop_one_exit (m t b : Nat) (data : List (DataPair α))
    (h : b ≠ t → ¬ (data.getD b DataPair.empty).first <
      (data.getD (size_t_sub b 1 % m) DataPair.empty).first) :
    bubble_loop m t 1 data b = some data := by
  by_cases hb : b = t
  · simp only [bubble_loop, hb, if_true]
  · simp only [bubble_loop, hb, if_false]
    rw [if_neg (h hb)]

theorem insert_zero_returns {cap k : Nat} (hcap : 1 ≤ cap) {s : DataRingRepo α}
    (hc : counters_after cap k s) (hlen : s._data.length = cap) (hz : zero_run s) (p : Nat) :
    ∃ s1, insert_data 1 s ⟨0, p⟩ = some s1 ∧ s1._data.length = cap ∧ zero_run s1 := by
  have hc1 := store_counters hcap hc (⟨0, p⟩ : DataType α)
  obtain ⟨c1, c2, c3, c4⟩ := hc
  obtain ⟨d1, d2, d3, d4⟩ := hc1
  have hlt : k % cap < cap := Nat.mod_lt _ hcap
  have hhead : (store s (⟨0, p⟩ : DataType α))._head_at = ((k % cap : Nat) : Int) := by
    rw [d3]; simp
  have hdata : (store s (⟨0, p⟩ : DataType α))._data = s._data.set (k % cap) ⟨0, some ⟨0, p⟩⟩ := by
    have h := hhead
    rw [store_head_at] at h
    unfold store
    simp only [to_int]
    rw [Int.toNat_ofNat, Int.ofNat_inj.mp h]
  have hzs : zero_run (store s (⟨0, p⟩ : DataType α)) := by
    intro i hi hv
    rw [d1] at hi
    rw [hdata]
    by_cases hik : i = k % cap
    · subst hik
      rw [List.getD_eq_getElem _ _ (by rw [List.length_set, hlen]; exact hi)]
      simp
    · rw [List.getD_eq_getElem?_getD, List.getElem?_set_ne (fun h => hik h.symm),
        ← List.getD_eq_getElem?_getD]
      apply hz i (by rw [c1]; exact hi)
      rw [d4, hhead] at hv
      rw [c4]
      by_cases hck : cap ≤ k
      · exact Or.inl hck
      · right
        have hk1 : k % cap = k := Nat.mod_eq_of_lt (by omega)
        rw [hk1] at hv hik
        have hh : s._head_at = (k : Int) - 1 := by
          rw [c3]
          by_cases hk0 : k = 0
          · simp [hk0]
          · simp only [hk0, if_false]
            have : (k - 1) % cap = k - 1 := Nat.mod_eq_of_lt (by omega)
            rw [this]; omega
        rw [hh]
        rcases hv with hv | hv <;> omega
  have hloop : bubble_loop (store s (⟨0, p⟩ : DataType α))._max_size
      (if (store s (⟨0, p⟩ : DataType α))._is_full then
        to_size_t ((store s (⟨0, p⟩ : DataType α))._head_at + 1) %
          (store s (⟨0, p⟩ : DataType α))._max_size else 0) 1
      (store s (⟨0, p⟩ : DataType α))._data
      (to_size_t (store s (⟨0, p⟩ : DataType α))._head_at) =
      some (store s (⟨0, p⟩ : DataType α))._data := by
    apply bubble_loop_one_exit
    intro hne
    rw [hhead, to_size_t_ofNat, d1] at hne ⊢
    have hcomp : size_t_sub (k % cap) 1 % cap < cap := Nat.mod_lt _ hcap
    have e1 := hzs (k % cap) (by rw [d1]; exact hlt) (Or.inr (by rw [hhead]))
    have e2 : ((store s (⟨0, p⟩ : DataType α))._data.getD (size_t_sub (k % cap) 1 % cap)
        DataPair.empty).first = 0 := by
      apply hzs _ (by rw [d1]; exact hcomp)
      by_cases hf : (store s (⟨0, p⟩ : DataType α))._is_full = true
      · exact Or.inl hf
      · right
        rw [if_neg hf] at hne
        rw [hhead, size_t_sub_one_pos _ (Nat.pos_of_ne_zero hne)]
        have : (k % cap - 1) % cap = k % cap - 1 := Nat.mod_eq_of_lt (by omega)
        rw [this]; omega
    rw [e1, e2]
    exact lt_irrefl 0
  refine ⟨store s (⟨0, p⟩ : DataType α), ?_, ?_, hzs⟩
  · simp only [insert_data, bubble_sort, hloop, Option.map_some']
  · rw [hdata, List.length_set, hlen]

theorem insert_all_zero_returns {cap : Nat} (hcap : 1 ≤ cap) (n : Nat) :
    ∀ (k : Nat) (s : DataRingRepo α), counters_after cap k s → s._data.length = cap →
      zero_run s → ∃ s1, insert_all 1 s (List.replicate n (⟨0, 0⟩ : DataType α)) = some s1 := by
  induction n with
  | zero => intro k s _ _ _; exact ⟨s, rfl⟩
  | succ n ih =>
    intro k s hc hlen hz
    obtain ⟨s1, h1, hl1, hz1⟩ := insert_zero_returns hcap hc hlen hz 0
    obtain ⟨s2, h2⟩ := ih (k + 1) s1 (insert_data_counters hcap hc h1) hl1 hz1
    refine ⟨s2, ?_⟩
    simp only [List.replicate_succ, insert_all, h1]
    exact h2

/-- Counters after inserts that return. For every capacity `cap ≥ 1` and a buffer that is
freshly constructed or freshly cleared: if the calls of `insert_data` for the samples `xs` all
return, then afterwards `size() = min k cap` with `k` the number of samples, `is_empty()` holds
iff `k = 0`, which is exactly when `_head_at` is the sentinel `-1`, `is_full()` holds iff
`cap ≤ k`, for `k ≥ 1` the head index is `(k - 1) mod cap`, and `size() ≤ max_size()`; and for
every `k` there are `k` calls that return (samples that arrive in order need one loop iteration
each). -/
theorem counters_of_returned_inserts (cap : Nat) (hcap : 1 ≤ cap) (s0 : DataRingRepo α)
    (h0 : s0 = DataRingRepo.new cap ∨
      ∃ b : DataRingRepo α, b._max_size = cap ∧ b._data.length = cap ∧ s0 = b.clear) :
    (∀ (xs : List (DataType α)) (fuel : Nat) (s : DataRingRepo α),
        insert_all fuel s0 xs = some s →
          s.size = min xs.length cap ∧ (s.is_empty = true ↔ xs.length = 0) ∧
          (s._head_at = -1 ↔ xs.length = 0) ∧ (s.is_full = true ↔ cap ≤ xs.length) ∧
          (1 ≤ xs.length → s._head_at = (((xs.length - 1) % cap : Nat) : Int)) ∧
          s.size ≤ s.max_size) ∧
    (∀ k : Nat, ∃ xs : List (DataType α), xs.length = k ∧
        ∃ s, insert_all 1 s0 xs = some s) := by
  have hc0 : counters_after cap 0 s0 := by
    rcases h0 with rfl | ⟨b, hb, -, rfl⟩
    · exact counters_after_new cap hcap
    · subst hb; exact counters_after_clear b hcap
  have hl0 : s0._data.length = cap := by
    rcases h0 with rfl | ⟨b, -, hb, rfl⟩
    · simp [DataRingRepo.new]
    · exact hb
  have hz0 : zero_run s0 := by
    intro i _ hv
    rcases h0 with rfl | ⟨b, -, -, rfl⟩
    · rcases hv with hv | hv
      · simp [DataRingRepo.new] at hv
      · simp only [DataRingRepo.new] at hv; omega
    · rcases hv with hv | hv
      · simp [clear] at hv
      · simp only [clear] at hv; omega
  constructor
  · intro xs fuel s hs
    obtain ⟨c1, c2, c3, c4⟩ := insert_all_counters hcap xs 0 s0 s hc0 hs
    rw [Nat.zero_add] at c2 c3 c4
    have hmod : (xs.length - 1) % cap < cap := Nat.mod_lt _ hcap
    refine ⟨c2, ?_, ?_, c4, ?_, ?_⟩
    · unfold is_empty
      rw [decide_eq_true_iff, c3]
      by_cases hk : xs.length = 0
      · simp [hk]
      · simp only [hk, if_false, iff_false, not_lt]
        exact Int.ofNat_nonneg _
    · rw [c3]
      by_cases hk : xs.length = 0
      · simp [hk]
      · simp only [hk, if_false, iff_false]
        omega
    · intro hk
      rw [c3, if_neg (by omega)]
    · unfold size max_size
      rw [c2, c1]
      exact Nat.min_le_right _ _
  · intro k
    obtain ⟨s1, h1⟩ := insert_all_zero_returns hcap k 0 s0 hc0 hl0 hz0
    exact ⟨List.replicate k ⟨0, 0⟩, List.length_replicate _ _, s1, h1⟩


/-! ## Order repair before the first wrap -/

theorem getD_append_cons (L T : List (DataPair α)) (x : DataPair α) :
    (L ++ x :: T).getD L.length DataPair.empty = x := by
  induction L with
  | nil => rfl
  | cons a L ih => simpa using ih

theorem swap_adjacent (L T : List (DataPair α)) (x y : DataPair α) :
    ((L ++ y :: x :: T).set (L.length + 1) y).set L.length x = L ++ x :: y :: T := by
  induction L with
  | nil => rfl
  | cons a L ih => simp [ih]

theorem bubble_loop_insert (cap : Nat) (L : List (DataPair α)) :
    ∀ (fuel : Nat) (T : List (DataPair α)) (x : DataPair α), L.length + 1 ≤ fuel →
      L.length ≤ cap →
      ∃ L1 L2, L = L1 ++ L2 ∧
        bubble_loop cap 0 fuel (L ++ x :: T) L.length = some (L1 ++ x :: (L2 ++ T)) ∧
        (∀ y ∈ L2, x.first < y.first) ∧ (∀ z, L1.getLast? = some z → z.first ≤ x.first) := by
  induction L using List.reverseRecOn with
  | nil =>
    intro fuel T x hfuel _
    obtain ⟨f, rfl⟩ : ∃ f, fuel = f + 1 := ⟨fuel - 1, by simp at hfuel; omega⟩
    refine ⟨[], [], rfl, ?_, by simp, by simp⟩
    simp [bubble_loop]
  | append_singleton L y ih =>
    intro fuel T x hfuel hcap
    rw [List.length_append, List.length_singleton] at hfuel hcap
    obtain ⟨f, rfl⟩ : ∃ f, fuel = f + 1 := ⟨fuel - 1, by omega⟩
    have hcomp : size_t_sub (L.length + 1) 1 % cap = L.length := by
      rw [size_t_sub_one_pos _ (by omega : 0 < L.length + 1), Nat.add_sub_cancel,
        Nat.mod_eq_of_lt (by omega)]
    have hx : ((L ++ [y]) ++ x :: T).getD (L.length + 1) DataPair.empty = x := by
      have := getD_append_cons (L ++ [y]) T x
      rwa [List.length_append, List.length_singleton] at this
    have hy : ((L ++ [y]) ++ x :: T).getD L.length DataPair.empty = y := by
      have := getD_append_cons L (x :: T) y
      rwa [List.append_assoc, List.singleton_append]
    have hlen : (L ++ [y]).length = L.length + 1 := by simp
    rw [hlen]
    by_cases hlt : x.first < y.first
    · obtain ⟨L1, L2, hL, hrun, h2, h1⟩ := ih f (y :: T) x (by omega) (by omega)
      refine ⟨L1, L2 ++ [y], by rw [hL, List.append_assoc], ?_, ?_, h1⟩
      · simp only [bubble_loop, Nat.succ_ne_zero, if_false, hcomp, hx, hy, if_pos hlt]
        have hsw := swap_adjacent L T x y
        rw [List.append_assoc, List.singleton_append, hsw, hrun]
        simp
      · intro z hz
        rcases List.mem_append.1 hz with hz | hz
        · exact h2 z hz
        · rw [List.mem_singleton.1 hz]; exact hlt
    · refine ⟨L ++ [y], [], by simp, ?_, by simp, ?_⟩
      · simp only [bubble_loop, Nat.succ_ne_zero, if_false, hcomp, hx, hy, if_neg hlt]
        simp
      · intro z hz
        rw [List.getLast?_append, List.getLast?_singleton] at hz
        simp at hz
        rw [← hz]; exact not_lt.1 hlt

theorem sorted_insert_middle (L1 L2 : List (DataPair α)) (x : DataPair α)
    (hs : ((L1 ++ L2).map DataPair.first).Sorted (fun a b => a ≤ b))
    (h2 : ∀ y ∈ L2, x.first < y.first) (h1 : ∀ z, L1.getLast? = some z → z.first ≤ x.first) :
    ((L1 ++ x :: L2).map DataPair.first).Sorted (fun a b => a ≤ b) := by
  unfold List.Sorted at *
  rw [List.map_append, List.pairwise_append] at hs ⊢
  obtain ⟨s1, s2, s12⟩ := hs
  have hL1 : ∀ a ∈ L1, a.first ≤ x.first := by
    intro a ha
    rcases List.eq_nil_or_concat L1 with hn | ⟨L, z, hz⟩
    · rw [hn] at ha; cases ha
    · rw [List.concat_eq_append] at hz
      have hzl := h1 z (by rw [hz]; simp)
      rw [hz] at ha s1
      rcases List.mem_append.1 ha with ha | ha
      · rw [List.map_append, List.pairwise_append] at s1
        exact le_trans (s1.2.2 _ (List.mem_map_of_mem _ ha) _ (by simp)) hzl
      · rw [List.mem_singleton.1 ha]; exact hzl
  refine ⟨s1, ?_, ?_⟩
  · rw [List.map_cons, List.pairwise_cons]
    refine ⟨?_, s2⟩
    intro b hb
    obtain ⟨y, hy, rfl⟩ := List.mem_map.1 hb
    exact le_of_lt (h2 y hy)
  · intro a ha b hb
    obtain ⟨a', ha', rfl⟩ := List.mem_map.1 ha
    rw [List.map_cons, List.mem_cons] at hb
    rcases hb with rfl | hb
    · exact hL1 a' ha'
    · exact s12 _ ha _ hb

theorem insert_all_append (fuel : Nat) (ys zs : List (DataType α)) :
    ∀ s : DataRingRepo α, insert_all fuel s (ys ++ zs) =
      (insert_all fuel s ys).bind (fun s1 => insert_all fuel s1 zs) := by
  induction ys with
  | nil => intro s; rfl
  | cons y ys ih =>
    intro s
    simp only [List.cons_append, insert_all]
    cases insert_data fuel s y with
    | none => rfl
    | some s1 => exact ih s1

theorem counters_after_head {cap k : Nat} {s : DataRingRepo α} (hc : counters_after cap k s)
    (hk : k ≤ cap) : s._head_at = (k : Int) - 1 := by
  rw [hc.2.2.1]
  by_cases hk0 : k = 0
  · simp [hk0]
  · simp only [hk0, if_false]
    have : (k - 1) % cap = k - 1 := Nat.mod_eq_of_lt (by omega)
    rw [this]; omega

theorem insert_data_prewrap {cap k : Nat} (fuel : Nat) (hcap : 1 ≤ cap) {s : DataRingRepo α}
    (hc : counters_after cap k s) (hlen : s._data.length = cap) (hk : k < cap)
    (hfuel : k + 1 ≤ fuel) (x : DataType α) :
    ∃ s1 L1 L2, insert_data fuel s x = some s1 ∧ s1._data.length = cap ∧
      s._data.take k = L1 ++ L2 ∧
      s1._data.take (k + 1) = L1 ++ ⟨x.timestamp, some x⟩ :: L2 ∧
      (∀ y ∈ L2, x.timestamp < y.first) ∧
      (∀ z, L1.getLast? = some z → z.first ≤ x.timestamp) := by
  have hc1 := store_counters hcap hc x
  have hh1 := counters_after_head hc1 (by omega)
  obtain ⟨d1, d2, d3, d4⟩ := hc1
  have hkl : (s._data.take k).length = k := by rw [List.length_take, hlen]; omega
  have hhead : to_size_t (store s x)._head_at = k := by
    rw [hh1]; push_cast; rw [add_sub_cancel_right, to_size_t_ofNat]
  have hdata : (store s x)._data =
      s._data.take k ++ ⟨x.timestamp, some x⟩ :: s._data.drop (k + 1) := by
    have h : (store s x)._data = s._data.set (store s x)._head_at.toNat ⟨x.timestamp, some x⟩ := rfl
    rw [h, hh1]
    push_cast
    rw [add_sub_cancel_right, Int.toNat_ofNat]
    rw [List.set_eq_take_append_cons_drop, if_pos (by omega)]
  have htop : (if (store s x)._is_full then
      to_size_t ((store s x)._head_at + 1) % cap else 0) = 0 := by
    split
    · rename_i hf
      have hck : cap = k + 1 := by have := d4.1 hf; omega
      rw [hh1]
      push_cast
      rw [sub_add_cancel]
      have : ((k : Int) + 1) = ((k + 1 : Nat) : Int) := by push_cast; rfl
      rw [this, to_size_t_ofNat, ← hck, Nat.mod_self]
    · rfl
  obtain ⟨L1, L2, hL, hrun, h2, h1⟩ := bubble_loop_insert cap (s._data.take k) fuel
    (s._data.drop (k + 1)) ⟨x.timestamp, some x⟩ (by omega) (by omega)
  rw [hkl] at hrun
  refine ⟨⟨cap, L1 ++ ⟨x.timestamp, some x⟩ :: (L2 ++ s._data.drop (k + 1)), (store s x)._size,
    (store s x)._head_at, (store s x)._is_full⟩, L1, L2, ?_, ?_, hL, ?_, h2, h1⟩
  · simp only [insert_data, bubble_sort, d1, htop, hhead, hdata, hrun, Option.map_some']
  · have hll : L1.length + L2.length = k := by
      rw [← List.length_append, ← hL, hkl]
    simp only [List.length_append, List.length_cons, List.length_drop, hlen]
    omega
  · have hll : L1.length + L2.length = k := by
      rw [← List.length_append, ← hL, hkl]
    have : L1 ++ ⟨x.timestamp, some x⟩ :: (L2 ++ s._data.drop (k + 1)) =
        (L1 ++ ⟨x.timestamp, some x⟩ :: L2) ++ s._data.drop (k + 1) := by simp
    show (L1 ++ ⟨x.timestamp, some x⟩ :: (L2 ++ s._data.drop (k + 1))).take (k + 1) = _
    rw [this, List.take_left' (by simp; omega)]

theorem sorted_le_getLast (l : List (DataPair α)) (z : DataPair α)
    (hs : (l.map DataPair.first).Sorted (fun a b => a ≤ b)) (hz : l.getLast? = some z) :
    ∀ a ∈ l, a.first ≤ z.first := by
  obtain ⟨ys, rfl⟩ := List.getLast?_eq_some_iff.1 hz
  intro a ha
  unfold List.Sorted at hs
  rw [List.map_append, List.pairwise_append] at hs
  rcases List.mem_append.1 ha with ha | ha
  · exact hs.2.2 _ (List.mem_map_of_mem _ ha) _ (by simp)
  · rw [List.mem_singleton.1 ha]

theorem insert_all_prewrap (cap : Nat) (hcap : 1 ≤ cap) (fuel : Nat) (xs : List (DataType α)) :
    xs.length ≤ cap → xs.length ≤ fuel →
    ∃ s, insert_all fuel (DataRingRepo.new cap) xs = some s ∧ counters_after cap xs.length s ∧
      s._data.length = cap ∧
      (s._data.take xs.length).Perm (xs.map DataPair.of) ∧
      ((s._data.take xs.length).map DataPair.first).Sorted (fun a b => a ≤ b) ∧
      (∀ ys x, xs = ys ++ [x] → (∀ y ∈ ys, y.timestamp ≤ x.timestamp) →
        (s._data.take xs.length).getLast? = some (DataPair.of x)) := by
  induction xs using List.reverseRecOn with
  | nil =>
    intro _ _
    refine ⟨DataRingRepo.new cap, rfl, counters_after_new cap hcap, by simp [DataRingRepo.new],
      by simp, by simp, ?_⟩
    intro ys x h
    simp at h
  | append_singleton ys x ih =>
    intro hn hf
    rw [List.length_append, List.length_singleton] at hn hf
    obtain ⟨s0, hrun0, hc0, hl0, hp0, hs0, -⟩ := ih (by omega) (by omega)
    obtain ⟨s1, L1, L2, hins, hl1, hL, hT, h2, h1⟩ :=
      insert_data_prewrap fuel hcap hc0 hl0 (by omega : ys.length < cap) (by omega) x
    have hlen : (ys ++ [x]).length = ys.length + 1 := by simp
    rw [hlen]
    refine ⟨s1, ?_, insert_data_counters hcap hc0 hins, hl1, ?_, ?_, ?_⟩
    · rw [insert_all_append, hrun0]
      simp only [Option.some_bind, insert_all, hins]
    · rw [hT, List.map_append, List.map_singleton]
      refine List.perm_middle.trans ?_
      refine (List.Perm.cons _ ?_).trans (List.perm_append_singleton _ _).symm
      rw [← hL]; exact hp0
    · rw [hT]
      exact sorted_insert_middle L1 L2 _ (by rw [← hL]; exact hs0) h2 h1
    · intro ys1 x1 hxs hall
      obtain ⟨rfl, hx⟩ := List.append_inj' hxs rfl
      obtain rfl : x = x1 := by simpa using hx
      have hL2 : L2 = [] := by
        rcases L2 with _ | ⟨y, L2⟩
        · rfl
        · exfalso
          have hy : y ∈ s0._data.take ys.length := by rw [hL]; simp
          obtain ⟨d, hd, rfl⟩ := List.mem_map.1 ((hp0.mem_iff).1 hy)
          exact absurd (h2 _ (List.mem_cons_self _ _)) (not_lt.2 (hall d hd))
      rw [hT, hL2]
      exact List.getLast?_concat _

/-- C7 (order repair before the first wrap). For every capacity `cap ≥ 1` and every list `xs` of
`n ≤ cap` samples, in any timestamp order: inserting them one by one into a freshly constructed
buffer returns (each call within `n` loop iterations), and afterwards slots `0..n-1` hold a
permutation of the inserted samples whose timestamps are non-decreasing. -/
theorem C7_prewrap_sorted (cap : Nat) (hcap : 1 ≤ cap) (xs : List (DataType α))
    (hn : xs.length ≤ cap) (fuel : Nat) (hfuel : xs.length ≤ fuel) :
    ∃ s, insert_all fuel (DataRingRepo.new cap) xs = some s ∧
      (s._data.take xs.length).Perm (xs.map DataPair.of) ∧
      ((s._data.take xs.length).map DataPair.first).Sorted (fun a b => a ≤ b) := by
  obtain ⟨s, h1, -, -, h2, h3, -⟩ := insert_all_prewrap cap hcap fuel xs hn hfuel
  exact ⟨s, h1, h2, h3⟩

/-- Witness of C7: capacity 5, timestamps `[1, 3, 2]` leave the run `[1, 2, 3]`. -/
theorem C7_prewrap_sorted_witness :
    (∃ s, insert_all 3 (DataRingRepo.new 5 : DataRingRepo ℤ) [⟨1, 0⟩, ⟨3, 1⟩, ⟨2, 2⟩] = some s ∧
      (s._data.take 3).Perm
        (([⟨1, 0⟩, ⟨3, 1⟩, ⟨2, 2⟩] : List (DataType ℤ)).map DataPair.of) ∧
      ((s._data.take 3).map DataPair.first).Sorted (fun a b => a ≤ b)) ∧
    (insert_all 3 (DataRingRepo.new 5 : DataRingRepo ℤ) [⟨1, 0⟩, ⟨3, 1⟩, ⟨2, 2⟩]).map
      run_timestamps = some [1, 2, 3] :=
  ⟨C7_prewrap_sorted 5 (by decide) [⟨1, 0⟩, ⟨3, 1⟩, ⟨2, 2⟩] (by decide) 3 (by decide), by decide⟩

theorem getD_of_take_getLast (l : List (DataPair α)) (n : Nat) (z : DataPair α) (hn : 1 ≤ n)
    (hl : n ≤ l.length) (hz : (l.take n).getLast? = some z) :
    l.getD (n - 1) DataPair.empty = z := by
  rw [List.getLast?_eq_getElem?, List.length_take, Nat.min_eq_left hl,
    List.getElem?_take_of_lt (by omega)] at hz
  rw [List.getD_eq_getElem?_getD, hz]
  rfl

/-- C8 (latest lookup). For every capacity `cap ≥ 1` and every list `xs` of `N` samples with
`1 ≤ N ≤ cap` inserted into a freshly constructed buffer, the inserts return and
`get_latest_data` returns `true` with a sample `d` that is one of the inserted samples and whose
timestamp is the maximum of all inserted timestamps; it is the `N`-th inserted sample whenever
that sample's timestamp is at least all earlier ones. -/
theorem C8_latest_is_max (cap : Nat) (hcap : 1 ≤ cap) (xs : List (DataType α))
    (h1 : 1 ≤ xs.length) (hn : xs.length ≤ cap) (fuel : Nat) (hfuel : xs.length ≤ fuel) :
    ∃ s d, insert_all fuel (DataRingRepo.new cap) xs = some s ∧
      s.get_latest_data = (true, some d) ∧ d ∈ xs ∧ (∀ y ∈ xs, y.timestamp ≤ d.timestamp) ∧
      (∀ ys x, xs = ys ++ [x] → (∀ y ∈ ys, y.timestamp ≤ x.timestamp) → d = x) := by
  obtain ⟨s, hrun, hc, hl, hp, hs, hlast⟩ := insert_all_prewrap cap hcap fuel xs hn hfuel
  have hhead := counters_after_head hc hn
  have hne : s._data.take xs.length ≠ [] := by
    intro h
    have := congrArg List.length h
    rw [List.length_take, hl, List.length_nil] at this
    omega
  obtain ⟨z, hz⟩ : ∃ z, (s._data.take xs.length).getLast? = some z :=
    ⟨_, List.getLast?_eq_getLast _ hne⟩
  have hzmem : z ∈ s._data.take xs.length := List.mem_of_getLast?_eq_some hz
  obtain ⟨d, hd, hdz⟩ := List.mem_map.1 ((hp.mem_iff).1 hzmem)
  have hslot : s._data.getD (xs.length - 1) DataPair.empty = z :=
    getD_of_take_getLast _ _ _ h1 (by omega) hz
  have hle := sorted_le_getLast _ _ hs hz
  refine ⟨s, d, hrun, ?_, hd, ?_, ?_⟩
  · unfold get_latest_data get_latest_data_lock_free slot
    have hnn : ¬ ((xs.length : Int) - 1 < 0) := by omega
    rw [hhead, if_neg hnn]
    have : ((xs.length : Int) - 1).toNat = xs.length - 1 := by omega
    rw [this, hslot, ← hdz]
    rfl
  · intro y hy
    have hy' : DataPair.of y ∈ s._data.take xs.length :=
      (hp.mem_iff).2 (List.mem_map_of_mem _ hy)
    have := hle _ hy'
    rw [← hdz] at this
    exact this
  · intro ys x hxs hall
    have := hlast ys x hxs hall
    rw [hz] at this
    have hzx : DataPair.of d = DataPair.of x := by rw [hdz]; exact Option.some.inj this
    have := congrArg DataPair.second hzx
    exact Option.some.inj this

/-- Witness of C8: capacity 3, three inserts, the latest sample is the one with timestamp 3. -/
theorem C8_latest_is_max_witness :
    ∃ s d, insert_all 3 (DataRingRepo.new 3 : DataRingRepo ℤ) [⟨1, 0⟩, ⟨3, 1⟩, ⟨2, 2⟩] = some s ∧
      s.get_latest_data = (true, some d) ∧ d ∈ ([⟨1, 0⟩, ⟨3, 1⟩, ⟨2, 2⟩] : List (DataType ℤ)) ∧
      (∀ y ∈ ([⟨1, 0⟩, ⟨3, 1⟩, ⟨2, 2⟩] : List (DataType ℤ)), y.timestamp ≤ d.timestamp) ∧
      (∀ ys x, ([⟨1, 0⟩, ⟨3, 1⟩, ⟨2, 2⟩] : List (DataType ℤ)) = ys ++ [x] →
        (∀ y ∈ ys, y.timestamp ≤ x.timestamp) → d = x) :=
  C8_latest_is_max 3 (by decide) [⟨1, 0⟩, ⟨3, 1⟩, ⟨2, 2⟩] (by decide) (by decide) 3 (by decide)

/-! ## The representation invariant holds in every reachable state -/

theorem bubble_loop_length (m t : Nat) :
    ∀ (fuel : Nat) (data data1 : List (DataPair α)) (b : Nat),
      bubble_loop m t fuel data b = some data1 → data1.length = data.length := by
  intro fuel
  induction fuel with
  | zero => intro data data1 b h; simp [bubble_loop] at h
  | succ f ih =>
    intro data data1 b h
    simp only [bubble_loop] at h
    split at h
    · simp only [Option.some.injEq] at h; rw [← h]
    · split at h
      · rw [ih _ _ _ h, List.length_set, List.length_set]
      · simp only [Option.some.injEq] at h; rw [← h]

theorem insert_data_length {fuel : Nat} {s s1 : DataRingRepo α} {d : DataType α}
    (h : insert_data fuel s d = some s1) : s1._data.length = s._data.length := by
  unfold insert_data bubble_sort at h
  simp only [Option.map_eq_some'] at h
  obtain ⟨data1, hl, rfl⟩ := h
  rw [bubble_loop_length _ _ _ _ _ _ hl]
  simp [store]

theorem well_formed_new (cap : Nat) (hcap : 1 ≤ cap) :
    well_formed (DataRingRepo.new cap : DataRingRepo α) := by
  refine ⟨by simp [DataRingRepo.new], hcap, ?_⟩
  simp only [DataRingRepo.new]
  simp
  omega

theorem well_formed_clear {s : DataRingRepo α} (h : well_formed s) : well_formed s.clear := by
  obtain ⟨h1, h2, -⟩ := h
  refine ⟨h1, h2, ?_⟩
  simp only [clear]
  simp
  omega

theorem well_formed_store {s : DataRingRepo α} (h : well_formed s) (d : DataType α) :
    well_formed (store s d) := by
  obtain ⟨h1, h2, h3⟩ := h
  have hsub : size_t_sub s._max_size 1 = s._max_size - 1 := size_t_sub_one_pos _ h2
  refine ⟨by simp [store, h1], h2, ?_⟩
  by_cases hf : s._is_full = true
  · rw [if_pos hf] at h3
    obtain ⟨a1, a2, a3⟩ := h3
    have hfs : (store s d)._is_full = true := (store_is_full s d).2 (Or.inl hf)
    rw [if_pos hfs, store_head_at, store_size, store_max_size, a3]
    have hlt : to_size_t (s._head_at + 1) % s._max_size < s._max_size := Nat.mod_lt _ h2
    refine ⟨Int.ofNat_nonneg _, by exact_mod_cast hlt, by omega⟩
  · rw [if_neg hf] at h3
    obtain ⟨a1, a2, a3⟩ := h3
    have hts : to_size_t (s._head_at + 1) = s._size := by
      rw [a2, to_size_t_ofNat]
    have hmod : s._size % s._max_size = s._size := Nat.mod_eq_of_lt a3
    by_cases hfs : (store s d)._is_full = true
    · rw [if_pos hfs, store_head_at, store_size, store_max_size, hts, hmod]
      have := (store_is_full s d).1 hfs
      rw [hts, hsub] at this
      rcases this with h | h
      · exact absurd h hf
      · refine ⟨Int.ofNat_nonneg _, by exact_mod_cast a3, by omega⟩
    · rw [if_neg hfs, store_head_at, store_size, store_max_size, hts, hmod]
      have := mt (store_is_full s d).2 hfs
      rw [hts, hsub] at this
      push_neg at this
      refine ⟨by omega, by omega, by omega⟩

theorem well_formed_insert_data {fuel : Nat} {s s1 : DataRingRepo α} {d : DataType α}
    (h : well_formed s) (hi : insert_data fuel s d = some s1) : well_formed s1 := by
  obtain ⟨e1, e2, e3, e4⟩ := bubble_sort_counters hi
  obtain ⟨w1, w2, w3⟩ := well_formed_store h d
  refine ⟨?_, by rw [e1]; exact w2, by rw [e1, e2, e3, e4]; exact w3⟩
  rw [insert_data_length hi, e1, store_max_size]
  exact h.1

theorem Reachable.well_formed {cap : Nat} (hcap : 1 ≤ cap) {s : DataRingRepo α}
    (h : Reachable cap s) : well_formed s := by
  induction h with
  | init => exact well_formed_new cap hcap
  | insert fuel s s1 d _ hi ih => exact well_formed_insert_data ih hi
  | cleared s _ ih => exact well_formed_clear ih

/-! ## Closest match on a contiguous run -/

theorem getElem?_eq_slot (s : DataRingRepo α) (i : Nat) (h : i < s._data.length) :
    s._data[i]? = some (s.slot i) := by
  unfold slot
  rw [List.getD_eq_getElem?_getD, List.getElem?_eq_getElem h]
  rfl

/-- A lawful rounding maps zero to zero. -/
theorem fl_zero [Rounding α] (hfl : lawful_rounding α) : Rounding.fl (0 : α) = 0 := by
  have h := hfl.2.1 0
  rw [neg_zero] at h
  exact le_antisymm (by linarith) (by linarith)

/-- A lawful rounding commutes with the absolute value. -/
theorem abs_fl [Rounding α] (hfl : lawful_rounding α) (x : α) :
    |Rounding.fl x| = Rounding.fl |x| := by
  rcases le_total 0 x with h | h
  · have := hfl.1 0 x h
    rw [fl_zero hfl] at this
    rw [abs_of_nonneg h, abs_of_nonneg this]
  · have := hfl.1 x 0 h
    rw [fl_zero hfl] at this
    rw [abs_of_nonpos h, abs_of_nonpos this, hfl.2.1]

/-- Under a lawful rounding the computed distance is monotone in the exact distance. -/
theorem abs_fl_mono [Rounding α] (hfl : lawful_rounding α) (x y : α) (h : |x| ≤ |y|) :
    |Rounding.fl x| ≤ |Rounding.fl y| := by
  rw [abs_fl hfl, abs_fl hfl]
  exact hfl.1 _ _ h

/-- On a physically contiguous range `low < high` the search returns, of an adjacent pair that
brackets the timestamp, the end with the smaller computed distance. -/
theorem binary_search_contiguous [Rounding α] (s : DataRingRepo α) (t : α) :
    ∀ (fuel low high : Nat), low < high → high < s._data.length →
      s._data.length = s._max_size → high - low ≤ fuel →
      s.ts low ≤ t → t ≤ s.ts high →
      ∃ l, low ≤ l ∧ l < high ∧ s.ts l ≤ t ∧ t ≤ s.ts (l + 1) ∧
        s.binary_search t fuel low high =
          .ok (if |Rounding.fl (s.ts l - t)| ≤ |Rounding.fl (s.ts (l + 1) - t)|
            then l else l + 1) := by
  intro fuel
  induction fuel with
  | zero => intro low high h1 _ _ h4; omega
  | succ f ih =>
    intro low high hlh hhi hlen hfuel hlo hup
    have hnot : ¬ high < low := by omega
    have hsub : size_t_sub high 1 = high - 1 := size_t_sub_one_pos _ (by omega)
    by_cases hbase : low = high - 1
    · refine ⟨low, le_refl _, hlh, hlo, ?_, ?_⟩
      · have : low + 1 = high := by omega
        rw [this]; exact hup
      · have hh : low + 1 = high := by omega
        simp only [binary_search, if_neg hnot, hsub]
        rw [if_pos hbase, getElem?_eq_slot s low (by omega), getElem?_eq_slot s high hhi, hh]
        rfl
    · have hmidlt : (low + high) / 2 < high := by omega
      have hmidgt : low < (low + high) / 2 := by omega
      have hmid : (low + high) / 2 % s._max_size = (low + high) / 2 :=
        Nat.mod_eq_of_lt (by omega)
      have hhm : high % s._max_size = high := Nat.mod_eq_of_lt (by omega)
      by_cases hgt : s.ts ((low + high) / 2) > t
      · obtain ⟨l, a1, a2, a3, a4, a5⟩ :=
          ih low ((low + high) / 2) hmidgt (by omega) hlen (by omega) hlo (le_of_lt hgt)
        refine ⟨l, a1, by omega, a3, a4, ?_⟩
        rw [← a5]
        simp only [binary_search, if_neg hnot, hsub, if_neg hbase, hmid]
        rw [getElem?_eq_slot s _ (by omega)]
        simp only []
        exact if_pos hgt
      · obtain ⟨l, a1, a2, a3, a4, a5⟩ :=
          ih ((low + high) / 2) high hmidlt hhi hlen (by omega) (not_lt.1 hgt) hup
        refine ⟨l, by omega, a2, a3, a4, ?_⟩
        rw [← a5]
        simp only [binary_search, if_neg hnot, hsub, if_neg hbase, hmid, hhm]
        rw [getElem?_eq_slot s _ (by omega)]
        simp only []
        exact if_neg hgt

theorem run_indices_contiguous {s : DataRingRepo α} (hwf : well_formed s)
    (hcont : s._is_full = false ∨ s._head_at = (s._max_size : Int) - 1) :
    s.run_indices = List.range s._size ∧ s._head_at = (s._size : Int) - 1 ∧
      s.oldest_at = 0 := by
  obtain ⟨h1, h2, h3⟩ := hwf
  by_cases hf : s._is_full = true
  · rw [if_pos hf] at h3
    obtain ⟨a1, a2, a3⟩ := h3
    have hh : s._head_at = (s._max_size : Int) - 1 := by
      rcases hcont with h | h
      · rw [hf] at h; cases h
      · exact h
    have hnat : s._head_at.toNat + 1 = s._max_size := by omega
    refine ⟨?_, by rw [a3]; exact hh, ?_⟩
    · unfold run_indices
      rw [if_pos hf, a3]
      conv_rhs => rw [← List.map_id (List.range s._max_size)]
      apply List.map_congr_left
      intro j hj
      rw [hnat, Nat.add_mod_left, Nat.mod_eq_of_lt (List.mem_range.1 hj)]
      rfl
    · unfold oldest_at
      rw [if_pos hf, hh, sub_add_cancel, to_size_t_ofNat, Nat.mod_self]
  · rw [if_neg hf] at h3
    obtain ⟨a1, a2, a3⟩ := h3
    refine ⟨?_, by omega, ?_⟩
    · unfold run_indices
      rw [if_neg hf, a2, Int.toNat_ofNat]
    · unfold oldest_at
      rw [if_neg hf]

theorem sorted_range_mono (n : Nat) (f : Nat → α)
    (h : ((List.range n).map f).Sorted (fun a b => a ≤ b)) :
    ∀ a b, a ≤ b → b < n → f a ≤ f b := by
  intro a b hab hb
  rcases Nat.eq_or_lt_of_le hab with rfl | hlt
  · exact le_refl _
  · unfold List.Sorted at h
    rw [List.pairwise_iff_getElem] at h
    have := h a b (by simp; omega) (by simp; omega) hlt
    simpa using this

theorem closest_of_bracket [Rounding α] (hfl : lawful_rounding α) (n : Nat) (f : Nat → α)
    (t : α) (mono : ∀ a b, a ≤ b → b < n → f a ≤ f b) (l : Nat) (hl : l + 1 < n)
    (h1 : f l ≤ t) (h2 : t ≤ f (l + 1)) :
    (∀ j, j < n →
        |Rounding.fl (f (if |Rounding.fl (f l - t)| ≤ |Rounding.fl (f (l + 1) - t)|
          then l else l + 1) - t)| ≤ |Rounding.fl (f j - t)|) ∧
      (∀ j, j + 1 < n → f j < t → t < f (j + 1) → t - f j = f (j + 1) - t →
        (if |Rounding.fl (f l - t)| ≤ |Rounding.fl (f (l + 1) - t)| then l else l + 1) = j) := by
  have e1 : |f l - t| = t - f l := by rw [abs_sub_comm]; exact abs_of_nonneg (sub_nonneg.2 h1)
  have e2 : |f (l + 1) - t| = f (l + 1) - t := abs_of_nonneg (sub_nonneg.2 h2)
  constructor
  · intro j hj
    have hr : |Rounding.fl (f (if |Rounding.fl (f l - t)| ≤ |Rounding.fl (f (l + 1) - t)|
          then l else l + 1) - t)| ≤ |Rounding.fl (f l - t)| ∧
        |Rounding.fl (f (if |Rounding.fl (f l - t)| ≤ |Rounding.fl (f (l + 1) - t)|
          then l else l + 1) - t)| ≤ |Rounding.fl (f (l + 1) - t)| := by
      split
      · rename_i h; exact ⟨le_refl _, h⟩
      · rename_i h; exact ⟨le_of_lt (not_le.1 h), le_refl _⟩
    rcases Nat.lt_or_ge l j with hjl | hjl
    · have hm : f (l + 1) ≤ f j := mono _ _ hjl hj
      have : |f j - t| = f j - t := abs_of_nonneg (sub_nonneg.2 (le_trans h2 hm))
      refine le_trans hr.2 (abs_fl_mono hfl _ _ ?_)
      rw [this, e2]; linarith
    · have hm : f j ≤ f l := mono _ _ hjl (by omega)
      have : |f j - t| = t - f j := by
        rw [abs_sub_comm]; exact abs_of_nonneg (sub_nonneg.2 (le_trans hm h1))
      refine le_trans hr.1 (abs_fl_mono hfl _ _ ?_)
      rw [this, e1]; linarith
  · intro j hj hjt htj heq
    have hlj : l = j := by
      rcases Nat.lt_trichotomy l j with h | h | h
      · exact absurd (le_trans h2 (mono (l + 1) j h (by omega))) (not_le.2 hjt)
      · exact h
      · exact absurd (le_trans (mono (j + 1) l h (by omega)) h1) (not_le.2 htj)
    subst hlj
    exact if_pos (abs_fl_mono hfl _ _ (by rw [e1, e2, heq]))

/-- C2 (closest match on a physically contiguous run), as the code computes it. The two
differences that `binary_search` compares are results of `double` subtractions and carry their
rounding; the rounding is taken to be lawful (monotone, odd, zero only at zero). Let the buffer
be well formed with a sorted valid run of at least two samples that does not cross the physical
end of the array (not full, or full with `head = capacity - 1`), and let `oldest ≤ t ≤ newest`.
Then, given fuel for `size` recursive calls, `get_closest_data_lock_free` returns `true` with an
index `i` of the valid run whose computed distance is least:
`|fl (ts i - t)| ≤ |fl (ts j - t)|` for every valid `j`. Hence `|ts i - t| ≤ |ts j - t|`
whenever the two subtractions are exact; a valid `j` strictly nearer to `t` than `i` has the same
computed distance as `i`; `ts i = t` when `t` is a stored timestamp; and when `t` lies strictly
between two adjacent samples at equal distance, the earlier one is returned. -/
theorem C2_closest_by_computed_distance [Rounding α] (hfl : lawful_rounding α)
    (s : DataRingRepo α) (t : α) (fuel : Nat)
    (hwf : well_formed s) (hsorted : s.run_sorted) (h2 : 2 ≤ s._size)
    (hcont : s._is_full = false ∨ s._head_at = (s._max_size : Int) - 1)
    (hlo : s.ts s.oldest_at ≤ t) (hhi : t ≤ s.ts s.newest_at) (hfuel : s._size ≤ fuel) :
    ∃ i : Nat, s.get_closest_data_lock_free fuel t = .ok (true, (i : Int)) ∧
      i ∈ s.run_indices ∧
      (∀ j ∈ s.run_indices, |Rounding.fl (s.ts i - t)| ≤ |Rounding.fl (s.ts j - t)|) ∧
      (∀ j ∈ s.run_indices, Rounding.fl (s.ts i - t) = s.ts i - t →
        Rounding.fl (s.ts j - t) = s.ts j - t → |s.ts i - t| ≤ |s.ts j - t|) ∧
      (∀ j ∈ s.run_indices, |s.ts j - t| < |s.ts i - t| →
        |Rounding.fl (s.ts j - t)| = |Rounding.fl (s.ts i - t)|) ∧
      (∀ j ∈ s.run_indices, s.ts j = t → s.ts i = t) ∧
      (∀ j, j ∈ s.run_indices → j + 1 ∈ s.run_indices → s.ts j < t → t < s.ts (j + 1) →
        t - s.ts j = s.ts (j + 1) - t → i = j) := by
  obtain ⟨hrun, hhead, hold⟩ := run_indices_contiguous hwf hcont
  have hlen := hwf.1
  have hsz : s._size ≤ s._max_size := by
    have := hwf.2.2
    split at this <;> omega
  have hnew : s.newest_at = s._size - 1 := by
    unfold newest_at
    have : s._head_at = ((s._size - 1 : Nat) : Int) := by omega
    rw [this, to_size_t_ofNat]
  rw [hold] at hlo
  rw [hnew] at hhi
  have mono : ∀ a b, a ≤ b → b < s._size → s.ts a ≤ s.ts b := by
    apply sorted_range_mono
    have := hsorted
    unfold run_sorted run_timestamps at this
    rw [hrun] at this
    exact this
  obtain ⟨l, l1, l2, l3, l4, l5⟩ := binary_search_contiguous s t fuel 0 (s._size - 1)
    (by omega) (by omega) hlen (by omega) hlo hhi
  obtain ⟨m1, m2⟩ := closest_of_bracket hfl s._size s.ts t mono l (by omega) l3 l4
  refine ⟨if |Rounding.fl (s.ts l - t)| ≤ |Rounding.fl (s.ts (l + 1) - t)| then l else l + 1,
    ?_, ?_, ?_, ?_, ?_, ?_, ?_⟩
  · have hlow : (if s._is_full then to_size_t (s._head_at + 1) % s._max_size else 0) = 0 := hold
    have hhigh : to_size_t s._head_at = s._size - 1 := hnew
    have hneg : ¬ s._head_at < 0 := by omega
    have c1 : ¬ (s.slot 0).first > t := not_lt.2 hlo
    have c2 : ¬ (s.slot (s._size - 1)).first < t := not_lt.2 hhi
    simp only [get_closest_data_lock_free, if_neg hneg, hlow, hhigh, if_neg c1, if_neg c2, l5]
    rfl
  · rw [hrun, List.mem_range]
    split <;> omega
  · intro j hj
    rw [hrun, List.mem_range] at hj
    exact m1 j hj
  · intro j hj hi hjx
    rw [hrun, List.mem_range] at hj
    have h := m1 j hj
    rw [hi, hjx] at h
    exact h
  · intro j hj hlt
    rw [hrun, List.mem_range] at hj
    exact le_antisymm (abs_fl_mono hfl _ _ (le_of_lt hlt)) (m1 j hj)
  · intro j hj hjt
    rw [hrun, List.mem_range] at hj
    have h := m1 j hj
    rw [hjt, sub_self, fl_zero hfl, abs_zero] at h
    exact sub_eq_zero.1 (hfl.2.2 _ (abs_nonpos_iff.1 h))
  · intro j _ hj1 a b c
    rw [hrun, List.mem_range] at hj1
    exact m2 j hj1 a b c

/-- Witness of C2 as amended: capacity 5 holding timestamps 10, 20, 40 and the query 30, at equal
distance from 20 and 40: the earlier slot 1 is returned. -/
theorem C2_closest_by_computed_distance_witness :
    (∃ i : Nat, buffer_10_20_40.get_closest_data_lock_free 3 30 = .ok (true, (i : Int)) ∧
      i ∈ buffer_10_20_40.run_indices ∧
      (∀ j ∈ buffer_10_20_40.run_indices,
        |Rounding.fl (buffer_10_20_40.ts i - 30)| ≤ |Rounding.fl (buffer_10_20_40.ts j - 30)|) ∧
      (∀ j ∈ buffer_10_20_40.run_indices,
        Rounding.fl (buffer_10_20_40.ts i - 30) = buffer_10_20_40.ts i - 30 →
        Rounding.fl (buffer_10_20_40.ts j - 30) = buffer_10_20_40.ts j - 30 →
        |buffer_10_20_40.ts i - 30| ≤ |buffer_10_20_40.ts j - 30|) ∧
      (∀ j ∈ buffer_10_20_40.run_indices,
        |buffer_10_20_40.ts j - 30| < |buffer_10_20_40.ts i - 30| →
        |Rounding.fl (buffer_10_20_40.ts j - 30)| = |Rounding.fl (buffer_10_20_40.ts i - 30)|) ∧
      (∀ j ∈ buffer_10_20_40.run_indices, buffer_10_20_40.ts j = 30 →
        buffer_10_20_40.ts i = 30) ∧
      (∀ j, j ∈ buffer_10_20_40.run_indices → j + 1 ∈ buffer_10_20_40.run_indices →
        buffer_10_20_40.ts j < 30 → 30 < buffer_10_20_40.ts (j + 1) →
        30 - buffer_10_20_40.ts j = buffer_10_20_40.ts (j + 1) - 30 → i = j)) ∧
    buffer_10_20_40.get_closest_data_lock_free 3 30 = .ok (true, 1) :=
  ⟨C2_closest_by_computed_distance binary64_lawful buffer_10_20_40 30 3 (by decide) (by decide)
    (by decide) (Or.inl rfl) (by decide) (by decide) (by decide), by decide⟩

/-- Counterexample to C2 as stated: capacity 5 holding the timestamps `-2^60` and `2^60`
(reached by two inserts; sorted, not full) and the query 1, within the range. The exact
distances are `2^60 + 1` to slot 0 and `2^60 - 1` to slot 1, so slot 1 is strictly nearer; the
two `double` subtractions give `-2^60` and `2^60`, the comparison of their magnitudes holds with
`≤`, and slot 0 is returned. -/
theorem C2_counterexample :
    insert_all 1 (DataRingRepo.new 5 : DataRingRepo ℤ)
        [⟨-1152921504606846976, 0⟩, ⟨1152921504606846976, 1⟩] = some buffer_far ∧
      buffer_far.well_formed ∧ buffer_far.run_sorted ∧ 2 ≤ buffer_far._size ∧
      buffer_far._is_full = false ∧
      buffer_far.ts buffer_far.oldest_at ≤ 1 ∧ 1 ≤ buffer_far.ts buffer_far.newest_at ∧
      (∀ fuel, buffer_far.get_closest_data_lock_free (fuel + 1) 1 = .ok (true, 0)) ∧
      1 ∈ buffer_far.run_indices ∧
      |buffer_far.ts 1 - 1| < |buffer_far.ts 0 - 1| ∧
      (Rounding.fl (buffer_far.ts 0 - 1) : ℤ) = -1152921504606846976 ∧
      (Rounding.fl (buffer_far.ts 1 - 1) : ℤ) = 1152921504606846976 :=
  ⟨by decide, by decide, by decide, by decide, rfl, by decide, by decide, fun _ => rfl,
    by decide, by decide, by decide, by decide⟩

/-! ## Overwrite on full: the swaps of the order repair keep every sample -/

theorem count_set_add {β : Type} [DecidableEq β] (d a v : β) :
    ∀ (l : List β) (i : Nat), i < l.length →
      (l.set i v).count a + (if l.getD i d = a then 1 else 0) =
        l.count a + (if v = a then 1 else 0) := by
  intro l
  induction l with
  | nil => intro i h; simp at h
  | cons b l ih =>
    intro i h
    cases i with
    | zero =>
      simp only [List.set_cons_zero, List.count_cons, List.getD_cons_zero, beq_iff_eq]
      omega
    | succ i =>
      have := ih i (by simpa using h)
      simp only [List.set_cons_succ, List.count_cons, List.getD_cons_succ, beq_iff_eq]
      omega

theorem getD_set_other {β : Type} (d v : β) (l : List β) (i j : Nat) (hj : j < l.length) :
    (l.set i v).getD j d = if i = j then v else l.getD j d := by
  by_cases h : i = j
  · subst h
    rw [if_pos rfl, List.getD_eq_getElem _ _ (by rw [List.length_set]; exact hj)]
    simp
  · rw [if_neg h, List.getD_eq_getElem?_getD, List.getElem?_set_ne h,
      ← List.getD_eq_getElem?_getD]

theorem swap_perm {β : Type} [DecidableEq β] (d : β) (l : List β) (i j : Nat)
    (hi : i < l.length) (hj : j < l.length) :
    ((l.set i (l.getD j d)).set j (l.getD i d)).Perm l := by
  rw [List.perm_iff_count]
  intro a
  have h1 := count_set_add d a (l.getD i d) (l.set i (l.getD j d)) j
    (by rw [List.length_set]; exact hj)
  have h2 := count_set_add d a (l.getD j d) l i hi
  have h3 : (l.set i (l.getD j d)).getD j d = l.getD j d := by
    rw [getD_set_other d _ l i j hj]
    split <;> rfl
  rw [h3] at h1
  omega

theorem bubble_loop_perm (m t : Nat) (hm : 0 < m) :
    ∀ (fuel : Nat) (data data1 : List (DataPair α)) (b : Nat), m ≤ data.length →
      b < data.length → bubble_loop m t fuel data b = some data1 → data1.Perm data := by
  intro fuel
  induction fuel with
  | zero => intro data data1 b _ _ h; simp [bubble_loop] at h
  | succ f ih =>
    intro data data1 b hml hb h
    simp only [bubble_loop] at h
    have hc : size_t_sub b 1 % m < data.length := lt_of_lt_of_le (Nat.mod_lt _ hm) hml
    split at h
    · simp only [Option.some.injEq] at h; rw [← h]
    · split at h
      · refine (ih _ _ _ ?_ ?_ h).trans (swap_perm DataPair.empty data b _ hb hc)
        · rw [List.length_set, List.length_set]; exact hml
        · rw [List.length_set, List.length_set]; exact hc
      · simp only [Option.some.injEq] at h; rw [← h]

theorem run_indices_full_perm {s : DataRingRepo α} (hf : s._is_full = true) :
    s.run_indices.Perm (List.range s._max_size) := by
  have h : s.run_indices = (List.range s._max_size).rotate (s._head_at.toNat + 1) := by
    unfold run_indices
    rw [if_pos hf]
    apply List.ext_getElem
    · simp
    · intro n h1 h2
      rw [List.getElem_rotate]
      simp [Nat.add_comm]
  rw [h]
  exact List.rotate_perm _ _

theorem map_slot_range (s : DataRingRepo α) {β : Type} (g : DataPair α → β) :
    (List.range s._data.length).map (fun i => g (s.slot i)) = s._data.map g := by
  apply List.ext_getElem
  · simp
  · intro n h1 h2
    simp only [List.getElem_map, List.getElem_range, slot]
    rw [List.getD_eq_getElem _ _ (by simpa using h2)]

theorem run_samples_full_perm {s : DataRingRepo α} (hf : s._is_full = true)
    (hlen : s._data.length = s._max_size) :
    s.run_samples.Perm (s._data.map DataPair.second) := by
  unfold run_samples
  rw [← map_slot_range s DataPair.second, hlen]
  exact (run_indices_full_perm hf).map _

theorem Reachable.max_size_eq {cap : Nat} {s : DataRingRepo α} (h : Reachable cap s) :
    s._max_size = cap := by
  induction h with
  | init => rfl
  | insert fuel s s1 d _ hi ih => rw [(bubble_sort_counters hi).1, store_max_size, ih]
  | cleared s _ ih => exact ih

theorem set_perm_cons {β : Type} (l : List β) (i : Nat) (v : β) (hi : i < l.length) :
    (l.set i v).Perm (v :: (l.take i ++ l.drop (i + 1))) := by
  rw [List.set_eq_take_append_cons_drop, if_pos hi]
  exact List.perm_middle

theorem self_perm_cons {β : Type} (d : β) (l : List β) (i : Nat) (hi : i < l.length) :
    l.Perm (l.getD i d :: (l.take i ++ l.drop (i + 1))) := by
  have h : l = l.take i ++ l.getD i d :: l.drop (i + 1) := by
    rw [List.getD_eq_getElem _ _ hi]
    conv_lhs => rw [← List.take_append_drop i l]
    rw [List.drop_eq_getElem_cons hi]
  conv_lhs => rw [h]
  exact List.perm_middle

theorem run_samples_full_cons {s : DataRingRepo α} (hf : s._is_full = true)
    (hpos : 1 ≤ s._max_size) (hh : 0 ≤ s._head_at) :
    ∃ rest, s.run_samples = (s.slot s.oldest_at).second :: rest := by
  obtain ⟨n, hn⟩ : ∃ n, s._max_size = n + 1 := ⟨s._max_size - 1, by omega⟩
  have ho : s.oldest_at = (s._head_at.toNat + 1 + 0) % s._max_size := by
    unfold oldest_at
    rw [if_pos hf]
    have : s._head_at + 1 = ((s._head_at.toNat + 1 : Nat) : Int) := by omega
    rw [this, to_size_t_ofNat, Nat.add_zero]
  have hr : List.range s._max_size = 0 :: (List.range n).map Nat.succ := by
    rw [hn, List.range_succ_eq_map]
  unfold run_samples run_indices
  rw [if_pos hf, ho, hr]
  exact ⟨_, rfl⟩

/-- Overwrite on a full buffer, for calls that return. For every capacity `cap ≥ 1`, every full
buffer state reachable by inserts and every new sample `x`: if `insert_data` returns, then in the
state it returns the size is still `cap`, the buffer is still full, and the samples of the valid
run are those of the previous run with the sample at its oldest position (slot
`(head + 1) mod cap`) removed and `x` added, as multisets; the call returns after one loop
iteration when no stored timestamp exceeds that of `x`. -/
theorem overwrite_on_full_of_returned (cap : Nat) (hcap : 1 ≤ cap) (s : DataRingRepo α)
    (hr : Reachable cap s) (hfull : s._is_full = true) (x : DataType α) :
    (∀ fuel s1, insert_data fuel s x = some s1 →
      s1.size = cap ∧ s1.is_full = true ∧
      s.run_samples = (s.slot s.oldest_at).second :: s.run_samples.tail ∧
      s1.run_samples.Perm (some x :: s.run_samples.tail)) ∧
    ((∀ i, i < cap → s.ts i ≤ x.timestamp) → ∃ s1, insert_data 1 s x = some s1) := by
  have hwf := hr.well_formed hcap
  have hmax := hr.max_size_eq
  obtain ⟨hlen, hpos, h3⟩ := hwf
  rw [if_pos hfull] at h3
  obtain ⟨hh0, hh1, hsz⟩ := h3
  have hold : s.oldest_at = to_size_t (s._head_at + 1) % s._max_size := by
    unfold oldest_at; rw [if_pos hfull]
  have holt : s.oldest_at < s._max_size := by rw [hold]; exact Nat.mod_lt _ hpos
  have hhead : (store s x)._head_at = (s.oldest_at : Int) := by rw [store_head_at, hold]
  have hdata : (store s x)._data = s._data.set s.oldest_at (DataPair.of x) := by
    have h : (store s x)._data =
        s._data.set (store s x)._head_at.toNat ⟨x.timestamp, some x⟩ := rfl
    rw [h, hhead, Int.toNat_ofNat]
    rfl
  have hfs : (store s x)._is_full = true := (store_is_full s x).2 (Or.inl hfull)
  constructor
  · intro fuel s1 hins
    obtain ⟨e1, e2, e3, e4⟩ := bubble_sort_counters hins
    have hl1 : s1._data.length = s1._max_size := by
      rw [insert_data_length hins, e1, store_max_size]; exact hlen
    have hf1 : s1._is_full = true := by rw [e4]; exact hfs
    obtain ⟨rest, hrest⟩ := run_samples_full_cons hfull hpos hh0
    have htail : s.run_samples.tail = rest := by rw [hrest]; rfl
    have hperm1 : s1._data.Perm (store s x)._data := by
      have h := hins
      unfold insert_data bubble_sort at h
      simp only [Option.map_eq_some'] at h
      obtain ⟨data1, hl, rfl⟩ := h
      refine bubble_loop_perm _ _ hpos fuel _ _ _ ?_ ?_ hl
      · rw [hdata, List.length_set, hlen]
      · rw [hhead, to_size_t_ofNat, hdata, List.length_set, hlen]; exact holt
    have hA : s1.run_samples.Perm
        (some x :: (s._data.take s.oldest_at ++ s._data.drop (s.oldest_at + 1)).map
          DataPair.second) := by
      refine (run_samples_full_perm hf1 hl1).trans ?_
      refine (hperm1.map _).trans ?_
      rw [hdata]
      exact (set_perm_cons s._data s.oldest_at (DataPair.of x) (by rw [hlen]; exact holt)).map _
    have hB : rest.Perm ((s._data.take s.oldest_at ++ s._data.drop (s.oldest_at + 1)).map
        DataPair.second) := by
      have h1 := run_samples_full_perm hfull hlen
      rw [hrest] at h1
      have h2 := (self_perm_cons DataPair.empty s._data s.oldest_at
        (by rw [hlen]; exact holt)).map DataPair.second
      exact List.Perm.cons_inv (h1.trans h2)
    refine ⟨?_, hf1, ?_, ?_⟩
    · unfold size
      rw [e2, store_size, hsz, hmax]
      omega
    · rw [htail]; exact hrest
    · rw [htail]
      exact hA.trans (List.Perm.cons _ hB.symm)
  · intro hall
    refine ⟨store s x, ?_⟩
    have hloop : bubble_loop (store s x)._max_size
        (if (store s x)._is_full then
          to_size_t ((store s x)._head_at + 1) % (store s x)._max_size else 0) 1
        (store s x)._data (to_size_t (store s x)._head_at) = some (store s x)._data := by
      apply bubble_loop_one_exit
      intro _
      have hc : size_t_sub s.oldest_at 1 % s._max_size < s._data.length := by
        rw [hlen]; exact Nat.mod_lt _ hpos
      have g1 : (s._data.set s.oldest_at (DataPair.of x)).getD s.oldest_at DataPair.empty =
          DataPair.of x := by
        rw [getD_set_other _ _ _ _ _ (by rw [hlen]; exact holt), if_pos rfl]
      have g2 : ((s._data.set s.oldest_at (DataPair.of x)).getD
          (size_t_sub s.oldest_at 1 % s._max_size) DataPair.empty).first ≤ x.timestamp := by
        rw [getD_set_other DataPair.empty (DataPair.of x) s._data s.oldest_at
          (size_t_sub s.oldest_at 1 % s._max_size) hc]
        split
        · exact le_refl _
        · exact hall _ (by rw [← hmax]; exact Nat.mod_lt _ hpos)
      rw [hhead, to_size_t_ofNat, store_max_size, hdata, g1]
      exact not_lt.2 g2
    simp only [insert_data, bubble_sort, hloop, Option.map_some']

theorem Reachable.of_insert_all {cap fuel : Nat} (xs : List (DataType α)) :
    ∀ (s s1 : DataRingRepo α), Reachable cap s → insert_all fuel s xs = some s1 →
      Reachable cap s1 := by
  induction xs with
  | nil =>
    intro s s1 h hi
    simp only [insert_all, Option.some.injEq] at hi
    rw [← hi]; exact h
  | cons d ds ih =>
    intro s s1 h hi
    simp only [insert_all] at hi
    cases hd : insert_data fuel s d with
    | none => rw [hd] at hi; cases hi
    | some s2 =>
      rw [hd] at hi
      exact ih s2 s1 (Reachable.insert fuel s s2 d h hd) hi


/-! ## Out-of-range queries -/

theorem get_closest_data_lock_free_out_of_range [Rounding α] (s : DataRingRepo α) (t : α)
    (fuel : Nat) (hne : 0 ≤ s._head_at) (ht : t < s.ts s.oldest_at ∨ s.ts s.newest_at < t) :
    s.get_closest_data_lock_free fuel t =
      .ok (false, if t < s.ts s.oldest_at then to_int s.oldest_at else to_int s.newest_at) := by
  have hneg : ¬ s._head_at < 0 := not_lt.2 hne
  unfold get_closest_data_lock_free
  rw [if_neg hneg]
  by_cases h1 : t < s.ts s.oldest_at
  · rw [if_pos h1]
    exact if_pos h1
  · rw [if_neg h1]
    have h2 : s.ts s.newest_at < t := ht.resolve_left h1
    exact (if_neg h1).trans (if_pos h2)

/-- C9 as amended (out-of-range result at the public interface). For every non-empty buffer and
every timestamp `t` strictly before the oldest or strictly after the newest valid timestamp, the
public `get_closest_data(t, data_ptr)` returns the out-of-range flag `false` and leaves
`data_ptr` null: the boundary sample is not handed to the caller. -/
theorem C9_out_of_range_null [Rounding α] (s : DataRingRepo α) (t : α) (fuel : Nat)
    (hne : s.is_empty = false) (ht : t < s.ts s.oldest_at ∨ s.ts s.newest_at < t) :
    s.get_closest_data fuel t = .ok (false, none) := by
  have h0 : 0 ≤ s._head_at := by
    unfold is_empty at hne
    exact not_lt.1 (of_decide_eq_false hne)
  unfold get_closest_data
  rw [get_closest_data_lock_free_out_of_range s t fuel h0 ht]

/-- Witness of C9 as amended: the full buffer 1, 2, 3 and the query 0. -/
theorem C9_out_of_range_null_witness :
    buffer_1_2_3.get_closest_data 3 0 = .ok (false, none) :=
  C9_out_of_range_null buffer_1_2_3 0 3 (by decide) (Or.inl (by decide))

/-- Counterexample to C9 as stated: the buffer holds 1, 2, 3 and the query 0 lies before the
oldest timestamp; the oldest sample is in slot 0, but the public `get_closest_data` returns
`false` with a null `data_ptr`, not with that sample. -/
theorem C9_counterexample :
    buffer_1_2_3.is_empty = false ∧ (0 : ℤ) < buffer_1_2_3.ts buffer_1_2_3.oldest_at ∧
      (buffer_1_2_3.slot buffer_1_2_3.oldest_at).second = some ⟨1, 0⟩ ∧
      buffer_1_2_3.get_closest_data 3 0 = .ok (false, none) ∧
      buffer_1_2_3.get_closest_data 3 0 ≠
        .ok (false, (buffer_1_2_3.slot buffer_1_2_3.oldest_at).second) := by
  decide

/-! ## Runs of the code on concrete buffers -/

/-- C1 (order invariant of `insert_data`), run of the code: capacity 3 holds the sorted run
1, 2, 5 (reached by three inserts); the new sample has timestamp 3, not smaller than 2, the
oldest timestamp that stays. `insert_data` returns after one loop iteration, because
`comp_at = (0 - 1) % 3` is `0` in `size_t` arithmetic and not the predecessor slot 2, and the
valid run is then 2, 5, 3, which is not sorted. -/
theorem C1_order_lost_after_wrap :
    insert_all 3 (DataRingRepo.new 3 : DataRingRepo ℤ) [⟨1, 0⟩, ⟨2, 1⟩, ⟨5, 2⟩] =
        some buffer_1_2_5 ∧
      buffer_1_2_5.run_sorted ∧ buffer_1_2_5.run_timestamps = [1, 2, 5] ∧
      size_t_sub 0 1 % 3 = 0 ∧
      (∀ fuel, (insert_data (fuel + 1) buffer_1_2_5 ⟨3, 3⟩).map
        (fun s => (s.run_timestamps, decide s.run_sorted)) = some ([2, 5, 3], false)) :=
  ⟨by decide, by decide, by decide, by decide, fun _ => rfl⟩

/-- The order repair can run forever: capacity 7 holds 9, 2, 3, 4, 5, 6, 7 with head 0 (eight
inserts); inserting timestamp 8 puts it into slot 1, one swap moves it to slot 0, and there
`comp_at = (0 - 1) % 7 = 1` in `size_t` arithmetic sends it back: slots 0 and 1 are swapped
for ever. -/
theorem insert_data_cycles_capacity_7 :
    insert_all 1 (DataRingRepo.new 7 : DataRingRepo ℤ)
        [⟨1, 0⟩, ⟨2, 1⟩, ⟨3, 2⟩, ⟨4, 3⟩, ⟨5, 4⟩, ⟨6, 5⟩, ⟨7, 6⟩, ⟨9, 7⟩] = some buffer_seven ∧
      buffer_seven.run_sorted ∧ size_t_sub 0 1 % 7 = 1 ∧
      ∀ fuel, insert_data fuel buffer_seven ⟨8, 8⟩ = none := by
  refine ⟨by decide, by decide, by decide, ?_⟩
  have key : ∀ fuel,
      bubble_loop 7 2 fuel [⟨9, some ⟨9, 7⟩⟩, ⟨8, some ⟨8, 8⟩⟩, ⟨3, some ⟨3, 2⟩⟩,
          ⟨4, some ⟨4, 3⟩⟩, ⟨5, some ⟨5, 4⟩⟩, ⟨6, some ⟨6, 5⟩⟩, (⟨7, some ⟨7, 6⟩⟩ : DataPair ℤ)]
          1 = none ∧
        bubble_loop 7 2 fuel [⟨8, some ⟨8, 8⟩⟩, ⟨9, some ⟨9, 7⟩⟩, ⟨3, some ⟨3, 2⟩⟩,
          ⟨4, some ⟨4, 3⟩⟩, ⟨5, some ⟨5, 4⟩⟩, ⟨6, some ⟨6, 5⟩⟩, (⟨7, some ⟨7, 6⟩⟩ : DataPair ℤ)]
          0 = none := by
    intro fuel
    induction fuel with
    | zero => exact ⟨rfl, rfl⟩
    | succ f ih =>
      refine ⟨Eq.trans ?_ ih.2, Eq.trans ?_ ih.1⟩
      · rfl
      · rfl
  intro fuel
  have h : insert_data fuel buffer_seven ⟨8, 8⟩ =
      (bubble_loop 7 2 fuel [⟨9, some ⟨9, 7⟩⟩, ⟨8, some ⟨8, 8⟩⟩, ⟨3, some ⟨3, 2⟩⟩,
          ⟨4, some ⟨4, 3⟩⟩, ⟨5, some ⟨5, 4⟩⟩, ⟨6, some ⟨6, 5⟩⟩, (⟨7, some ⟨7, 6⟩⟩ : DataPair ℤ)]
          1).map (fun d => ⟨7, d, 7, 1, true⟩) := rfl
  rw [h, (key fuel).1]
  rfl

/-- C3 (closest match across the wrap boundary), run of the code: capacity 3 after inserting
1.0, 2.0, 3.0, 4.0 (tenths of a second: array `[40, 20, 30]`, head 0). The query 2.6 is answered
with slot 2 (timestamp 3.0); for the queries 3.5 and 4.0 `binary_search` reaches the pair
`low = 2`, `high = 0 + 3` and reads `_data[3]`, outside the array of 3 slots. -/
theorem C3_wrap_reads_past_array :
    insert_all 1 (DataRingRepo.new 3 : DataRingRepo ℤ) [⟨10, 0⟩, ⟨20, 1⟩, ⟨30, 2⟩, ⟨40, 3⟩] =
        some buffer_wrapped ∧
      buffer_wrapped.run_sorted ∧ buffer_wrapped.run_timestamps = [20, 30, 40] ∧
      (∀ fuel, buffer_wrapped.get_closest_data_lock_free (fuel + 2) 26 = .ok (true, 2)) ∧
      (∀ fuel, buffer_wrapped.get_closest_data_lock_free (fuel + 2) 35 = .out_of_bounds 3) ∧
      (∀ fuel, buffer_wrapped.get_closest_data_lock_free (fuel + 2) 40 = .out_of_bounds 3) :=
  ⟨by decide, by decide, by decide, fun _ => rfl, fun _ => rfl, fun _ => rfl⟩

/-- C4 (range extraction), run of the code: on the buffer of capacity 3 after inserting
1.0, 2.0, 3.0, 4.0, `get_period_data(2.0, 4.0)` resolves the start to slot 1 and then reads
`_data[3]`, outside the array, while resolving the end. -/
theorem C4_period_reads_past_array :
    (∀ fuel, buffer_wrapped.get_closest_data_lock_free (fuel + 2) 20 = .ok (true, 1)) ∧
      (∀ fuel vec0, buffer_wrapped.get_period_data (fuel + 2) 20 40 vec0 = .out_of_bounds 3) :=
  ⟨fun _ => rfl, fun _ _ => rfl⟩

theorem get_period_data_start_out_of_range [Rounding α] (s : DataRingRepo α) (t e : α)
    (fuel : Nat) (vec0 : List (Option (DataType α)))
    (h : s.is_empty = true ∨ t < s.ts s.oldest_at ∨ s.ts s.newest_at < t) :
    s.get_period_data fuel t e vec0 = .ok (false, []) := by
  by_cases hne : s._head_at < 0
  · simp only [get_period_data, get_closest_data_lock_free, if_pos hne]
  · have h0 : 0 ≤ s._head_at := not_lt.1 hne
    have ht : t < s.ts s.oldest_at ∨ s.ts s.newest_at < t := by
      rcases h with h | h
      · unfold is_empty at h
        exact absurd (of_decide_eq_true h) hne
      · exact h
    unfold get_period_data
    rw [get_closest_data_lock_free_out_of_range s t fuel h0 ht]

theorem get_period_data_end_out_of_range [Rounding α] (s : DataRingRepo α) (t e : α)
    (fuel : Nat) (vec0 : List (Option (DataType α))) (h0 : 0 ≤ s._head_at)
    (he : e < s.ts s.oldest_at ∨ s.ts s.newest_at < e)
    (r : Bool × List (Option (DataType α))) (hr : s.get_period_data fuel t e vec0 = .ok r) :
    r = (false, []) := by
  unfold get_period_data at hr
  rw [get_closest_data_lock_free_out_of_range s e fuel h0 he] at hr
  split at hr
  · cases hr
  · cases hr
  · exact (Outcome.ok.inj hr).symm
  · exact (Outcome.ok.inj hr).symm

theorem binary_search_single_never_returns :
    ∀ fuel, buffer_single.binary_search 1 fuel 0 0 = .out_of_fuel := by
  intro fuel
  induction fuel with
  | zero => rfl
  | succ f ih =>
    have : buffer_single.binary_search 1 (f + 1) 0 0 = buffer_single.binary_search 1 f 0 0 := rfl
    rw [this, ih]

/-- C10 (empty range), run of the code: the buffer holds one sample with timestamp 1;
`get_period_data(1, 5)` has its end outside the covered range, but the start is inside, so
`binary_search(1, 0, 0)` is called first, and it calls itself with the same arguments whatever
the fuel: the query never returns. -/
theorem C10_period_never_returns :
    insert_all 1 (DataRingRepo.new 5 : DataRingRepo ℤ) [⟨1, 0⟩] = some buffer_single ∧
      buffer_single.ts buffer_single.newest_at < 5 ∧
      (∀ fuel vec0, buffer_single.get_period_data fuel 1 5 vec0 = .out_of_fuel) := by
  refine ⟨by decide, by decide, ?_⟩
  intro fuel vec0
  have h : buffer_single.get_closest_data_lock_free fuel 1 = .out_of_fuel := by
    have : buffer_single.get_closest_data_lock_free fuel 1 =
        (match buffer_single.binary_search 1 fuel 0 0 with
          | .ok idx => .ok (true, to_int idx)
          | .out_of_bounds i => .out_of_bounds i
          | .out_of_fuel => .out_of_fuel) := rfl
    rw [this, binary_search_single_never_returns]
  unfold get_period_data
  rw [h]

/-! ## Clear round trip: stale slots are never read -/

theorem bubble_loop_snoc_step (cap : Nat) (L T : List (DataPair α)) (x y : DataPair α)
    (f : Nat) (h : L.length + 1 ≤ cap) :
    bubble_loop cap 0 (f + 1) ((L ++ [y]) ++ x :: T) (L.length + 1) =
      if x.first < y.first then bubble_loop cap 0 f (L ++ x :: y :: T) L.length
      else some ((L ++ [y]) ++ x :: T) := by
  have hcomp : size_t_sub (L.length + 1) 1 % cap = L.length := by
    rw [size_t_sub_one_pos _ (by omega : 0 < L.length + 1), Nat.add_sub_cancel,
      Nat.mod_eq_of_lt (by omega)]
  have hx : ((L ++ [y]) ++ x :: T).getD (L.length + 1) DataPair.empty = x := by
    have := getD_append_cons (L ++ [y]) T x
    rwa [List.length_append, List.length_singleton] at this
  have hy : ((L ++ [y]) ++ x :: T).getD L.length DataPair.empty = y := by
    have := getD_append_cons L (x :: T) y
    rwa [List.append_assoc, List.singleton_append]
  simp only [bubble_loop, Nat.succ_ne_zero, if_false, hcomp, hx, hy]
  have hsw := swap_adjacent L T x y
  rw [List.append_assoc, List.singleton_append, hsw]

/-- With `top_at = 0` the loop started at `bubble_at` touches the slots `0..bubble_at` only:
the slots behind are carried along unchanged, whatever they hold. -/
theorem bubble_loop_tail (cap : Nat) (L : List (DataPair α)) :
    ∀ (fuel : Nat) (T1 T2 : List (DataPair α)) (x : DataPair α), L.length ≤ cap →
      (bubble_loop cap 0 fuel (L ++ x :: T1) L.length = none ∧
        bubble_loop cap 0 fuel (L ++ x :: T2) L.length = none) ∨
      ∃ P : List (DataPair α), P.length = L.length + 1 ∧
        bubble_loop cap 0 fuel (L ++ x :: T1) L.length = some (P ++ T1) ∧
        bubble_loop cap 0 fuel (L ++ x :: T2) L.length = some (P ++ T2) := by
  induction L using List.reverseRecOn with
  | nil =>
    intro fuel T1 T2 x _
    cases fuel with
    | zero => exact Or.inl ⟨rfl, rfl⟩
    | succ f =>
      refine Or.inr ⟨[x], rfl, ?_, ?_⟩ <;> simp [bubble_loop]
  | append_singleton L y ih =>
    intro fuel T1 T2 x hcap
    rw [List.length_append, List.length_singleton] at hcap
    have hlen : (L ++ [y]).length = L.length + 1 := by simp
    rw [hlen]
    cases fuel with
    | zero => exact Or.inl ⟨rfl, rfl⟩
    | succ f =>
      rw [bubble_loop_snoc_step cap L T1 x y f hcap, bubble_loop_snoc_step cap L T2 x y f hcap]
      by_cases hlt : x.first < y.first
      · rw [if_pos hlt, if_pos hlt]
        rcases ih f (y :: T1) (y :: T2) x (by omega) with h | ⟨P, hP, h1, h2⟩
        · exact Or.inl h
        · refine Or.inr ⟨P ++ [y], by simp [hP], ?_, ?_⟩
          · rw [h1]; simp
          · rw [h2]; simp
      · rw [if_neg hlt, if_neg hlt]
        exact Or.inr ⟨(L ++ [y]) ++ [x], by simp, by simp, by simp⟩

theorem getD_take_of_lt {β : Type} (d : β) (l : List β) (n i : Nat) (h : i < n) :
    (l.take n).getD i d = l.getD i d := by
  rw [List.getD_eq_getElem?_getD, List.getD_eq_getElem?_getD, List.getElem?_take_of_lt h]

theorem getD_eq_of_take_eq {β : Type} (d : β) (l1 l2 : List β) (n i : Nat) (h : i < n)
    (ht : l1.take n = l2.take n) : l1.getD i d = l2.getD i d := by
  rw [← getD_take_of_lt d l1 n i h, ← getD_take_of_lt d l2 n i h, ht]

theorem store_eq_of_counters (s : DataRingRepo α) (x : DataType α) :
    store s x = ⟨s._max_size, s._data.set (store s x)._head_at.toNat (DataPair.of x),
      (store s x)._size, (store s x)._head_at, (store s x)._is_full⟩ := rfl

theorem store_counters_congr {s t : DataRingRepo α} (x : DataType α)
    (h1 : s._max_size = t._max_size) (h2 : s._size = t._size) (h3 : s._head_at = t._head_at)
    (h4 : s._is_full = t._is_full) :
    (store s x)._max_size = (store t x)._max_size ∧ (store s x)._size = (store t x)._size ∧
      (store s x)._head_at = (store t x)._head_at ∧
      (store s x)._is_full = (store t x)._is_full := by
  unfold store
  simp only [h1, h2, h3, h4, and_self]

theorem store_not_full {s : DataRingRepo α} (hwf : well_formed s) (hf : s._is_full = false)
    (x : DataType α) :
    (store s x)._data =
        s._data.take s._size ++ DataPair.of x :: s._data.drop (s._size + 1) ∧
      to_size_t (store s x)._head_at = s._size ∧
      (if (store s x)._is_full then
        to_size_t ((store s x)._head_at + 1) % s._max_size else 0) = 0 ∧
      (store s x)._size = s._size + 1 := by
  obtain ⟨h1, h2, h3⟩ := hwf
  rw [hf] at h3
  simp only [Bool.false_eq_true, if_false] at h3
  obtain ⟨a1, a2, a3⟩ := h3
  have hts : to_size_t (s._head_at + 1) = s._size := by rw [a2, to_size_t_ofNat]
  have hhead : (store s x)._head_at = (s._size : Int) := by
    rw [store_head_at, hts, Nat.mod_eq_of_lt a3]
  refine ⟨?_, by rw [hhead, to_size_t_ofNat], ?_, by rw [store_size]; omega⟩
  · have h : (store s x)._data = s._data.set (store s x)._head_at.toNat (DataPair.of x) := rfl
    rw [h, hhead, Int.toNat_ofNat, List.set_eq_take_append_cons_drop, if_pos (by omega)]
  · split
    · rename_i hfs
      have := (store_is_full s x).1 hfs
      rw [hf, hts, size_t_sub_one_pos _ h2] at this
      have hk : s._size + 1 = s._max_size := by
        rcases this with h | h
        · cases h
        · omega
      rw [hhead, to_size_t_succ, hk, Nat.mod_self]
    · rfl

theorem same_valid_insert_data {s t : DataRingRepo α} (h : same_valid s t) (fuel : Nat)
    (x : DataType α) :
    (insert_data fuel s x = none ∧ insert_data fuel t x = none) ∨
      ∃ s1 t1, insert_data fuel s x = some s1 ∧ insert_data fuel t x = some t1 ∧
        same_valid s1 t1 := by
  obtain ⟨ws, wt, e1, e2, e3, e4, e5⟩ := h
  by_cases hf : s._is_full = true
  · have hsz : s._size = s._max_size := by
      have := ws.2.2
      rw [if_pos hf] at this
      exact this.2.2
    have hd : s._data = t._data := by
      have l1 : s._data.take s._size = s._data :=
        List.take_of_length_le (by rw [ws.1, hsz])
      have l2 : t._data.take s._size = t._data :=
        List.take_of_length_le (by rw [wt.1, hsz, e1])
      rw [← l1, ← l2]; exact e5
    have hst : s = t := by
      cases s; cases t
      simp only at e1 e2 e3 e4 hd
      subst e1 e2 e3 e4 hd
      rfl
    subst hst
    cases hi : insert_data fuel s x with
    | none => exact Or.inl ⟨rfl, rfl⟩
    | some s1 =>
      have w1 := well_formed_insert_data ws hi
      exact Or.inr ⟨s1, s1, rfl, rfl, w1, w1, rfl, rfl, rfl, rfl, rfl⟩
  · have hf' : s._is_full = false := by simpa using hf
    have hft : t._is_full = false := by rw [← e4]; exact hf'
    obtain ⟨sd, sh, stop, ssz⟩ := store_not_full ws hf' x
    obtain ⟨td, th, ttop, tsz⟩ := store_not_full wt hft x
    obtain ⟨c1, c2, c3, c4⟩ := store_counters_congr x e1 e2 e3 e4
    have hlt : s._size < s._max_size := by
      have := ws.2.2
      rw [hf'] at this
      simp only [Bool.false_eq_true, if_false] at this
      exact this.2.2
    have hkl : (s._data.take s._size).length = s._size := by
      rw [List.length_take, ws.1]; omega
    have hs : insert_data fuel s x =
        (bubble_loop s._max_size 0 fuel
          (s._data.take s._size ++ DataPair.of x :: s._data.drop (s._size + 1))
          (s._data.take s._size).length).map
          (fun d => ⟨s._max_size, d, (store s x)._size, (store s x)._head_at,
            (store s x)._is_full⟩) := by
      simp only [insert_data, bubble_sort, store_max_size, stop, sh, sd, hkl]
    have ht : insert_data fuel t x =
        (bubble_loop s._max_size 0 fuel
          (s._data.take s._size ++ DataPair.of x :: t._data.drop (s._size + 1))
          (s._data.take s._size).length).map
          (fun d => ⟨s._max_size, d, (store s x)._size, (store s x)._head_at,
            (store s x)._is_full⟩) := by
      simp only [insert_data, bubble_sort, store_max_size, td, ← e1, ← e2, ← e5, ← c2, ← c3,
        ← c4, stop, sh, hkl]
    rcases bubble_loop_tail s._max_size (s._data.take s._size) fuel
      (s._data.drop (s._size + 1)) (t._data.drop (s._size + 1)) (DataPair.of x)
      (by rw [hkl]; omega) with ⟨n1, n2⟩ | ⟨P, hP, p1, p2⟩
    · left
      rw [hs, ht, n1, n2]
      exact ⟨rfl, rfl⟩
    · right
      rw [hkl] at hP
      rw [hs, ht, p1, p2]
      refine ⟨_, _, rfl, rfl, ?_⟩
      have i1 : insert_data fuel s x = some ⟨s._max_size, P ++ s._data.drop (s._size + 1),
          (store s x)._size, (store s x)._head_at, (store s x)._is_full⟩ := by
        rw [hs, p1]; rfl
      have i2 : insert_data fuel t x = some ⟨s._max_size, P ++ t._data.drop (s._size + 1),
          (store s x)._size, (store s x)._head_at, (store s x)._is_full⟩ := by
        rw [ht, p2]; rfl
      refine ⟨well_formed_insert_data ws i1, well_formed_insert_data wt i2, rfl, rfl, rfl, rfl,
        ?_⟩
      show (P ++ s._data.drop (s._size + 1)).take (store s x)._size =
        (P ++ t._data.drop (s._size + 1)).take (store s x)._size
      rw [ssz, List.take_left' hP, List.take_left' hP]

theorem run_indices_lt_size {s : DataRingRepo α} (hwf : well_formed s) :
    ∀ i ∈ s.run_indices, i < s._size := by
  obtain ⟨h1, h2, h3⟩ := hwf
  intro i hi
  unfold run_indices at hi
  by_cases hf : s._is_full = true
  · rw [if_pos hf] at hi h3
    obtain ⟨j, -, rfl⟩ := List.mem_map.1 hi
    rw [h3.2.2]
    exact Nat.mod_lt _ h2
  · rw [if_neg hf] at hi h3
    rw [List.mem_range] at hi
    omega

theorem same_valid_observation {s t : DataRingRepo α} (h : same_valid s t) :
    observation s = observation t := by
  obtain ⟨ws, wt, e1, e2, e3, e4, e5⟩ := h
  have hslot : ∀ i, i < s._size → s.slot i = t.slot i := fun i hi =>
    getD_eq_of_take_eq DataPair.empty s._data t._data s._size i hi e5
  have hrun : s.run_indices = t.run_indices := by
    unfold run_indices
    rw [e1, e3, e4]
  have hlt := run_indices_lt_size ws
  have hlatest : s.get_latest_data = t.get_latest_data := by
    unfold get_latest_data get_latest_data_lock_free
    rw [← e3]
    by_cases hneg : s._head_at < 0
    · rw [if_pos hneg, if_pos hneg]
    · rw [if_neg hneg, if_neg hneg, hslot]
      have := ws.2.2
      split at this <;> omega
  have hsamples : s.run_samples = t.run_samples := by
    unfold run_samples
    rw [← hrun]
    exact List.map_congr_left (fun i hi => by rw [hslot i (hlt i hi)])
  have htimes : s.run_timestamps = t.run_timestamps := by
    unfold run_timestamps
    rw [← hrun]
    exact List.map_congr_left (fun i hi => by rw [hslot i (hlt i hi)])
  unfold observation size is_empty is_full
  rw [e2, e3, e4, hlatest, hsamples, htimes]

theorem same_valid_insert_all (fuel : Nat) (xs : List (DataType α)) :
    ∀ s t : DataRingRepo α, same_valid s t →
      (insert_all fuel s xs).map observation = (insert_all fuel t xs).map observation := by
  induction xs with
  | nil =>
    intro s t h
    simp only [insert_all, Option.map_some', same_valid_observation h]
  | cons d ds ih =>
    intro s t h
    simp only [insert_all]
    rcases same_valid_insert_data h fuel d with ⟨n1, n2⟩ | ⟨s1, t1, p1, p2, h1⟩
    · rw [n1, n2]
    · rw [p1, p2]
      exact ih s1 t1 h1

/-- C12 (clear round trip). For every buffer object `b` of capacity `c ≥ 1`: right after
`clear()`, `is_empty()` is true and `size()` is 0; and for every sequence `xs` of inserts (with
any fuel per call), running it on `clear(b)` and on a freshly constructed buffer of capacity `c`
either fails to return in both or returns in both with the same `size()`, `is_empty()`,
`is_full()`, head index, `get_latest_data` result and valid run (samples and timestamps, oldest
to newest). Every prefix of a sequence is a sequence, so this holds after every insert. -/
theorem C12_clear_round_trip (c : Nat) (hc : 1 ≤ c) (b : DataRingRepo α)
    (hb : b._max_size = c) (hlen : b._data.length = c) :
    b.clear.is_empty = true ∧ b.clear.size = 0 ∧
      ∀ (xs : List (DataType α)) (fuel : Nat),
        (insert_all fuel b.clear xs).map observation =
          (insert_all fuel (DataRingRepo.new c) xs).map observation := by
  refine ⟨by simp [clear, is_empty], rfl, ?_⟩
  intro xs fuel
  apply same_valid_insert_all
  have wb : well_formed b.clear := by
    refine ⟨by rw [← hb] at hlen; exact hlen, by rw [← hb] at hc; exact hc, ?_⟩
    simp only [clear]
    simp
    omega
  exact ⟨wb, well_formed_new c hc, hb, rfl, rfl, rfl, rfl⟩

/-- Witness of C12: the full buffer 1, 2, 3 of capacity 3 is cleared, then 7 and 6 are inserted;
the observation is that of a fresh buffer after the same inserts: size 2, latest sample 7, run
6, 7. -/
theorem C12_clear_round_trip_witness :
    (buffer_1_2_3.clear.is_empty = true ∧ buffer_1_2_3.clear.size = 0 ∧
      ∀ (xs : List (DataType ℤ)) (fuel : Nat),
        (insert_all fuel buffer_1_2_3.clear xs).map observation =
          (insert_all fuel (DataRingRepo.new 3) xs).map observation) ∧
    (insert_all 2 buffer_1_2_3.clear [⟨7, 0⟩, ⟨6, 1⟩]).map observation =
      some (2, false, false, 1, (true, some ⟨7, 0⟩), [some ⟨6, 1⟩, some ⟨7, 0⟩], [6, 7]) :=
  ⟨C12_clear_round_trip 3 (by decide) buffer_1_2_3 rfl rfl, rfl⟩

/-! ## Further runs of the code on concrete buffers -/

theorem get_closest_single_never_returns :
    ∀ fuel, buffer_single.get_closest_data_lock_free fuel 1 = .out_of_fuel := by
  intro fuel
  have h : buffer_single.get_closest_data_lock_free fuel 1 =
      (match buffer_single.binary_search 1 fuel 0 0 with
        | .ok idx => .ok (true, to_int idx)
        | .out_of_bounds i => .out_of_bounds i
        | .out_of_fuel => .out_of_fuel) := rfl
  rw [h, binary_search_single_never_returns]

theorem get_closest_capacity_one_never_returns :
    ∀ fuel, buffer_capacity_one.get_closest_data_lock_free fuel 1 = .out_of_fuel := by
  have hb : ∀ fuel, buffer_capacity_one.binary_search 1 fuel 0 0 = .out_of_fuel := by
    intro fuel
    induction fuel with
    | zero => rfl
    | succ f ih =>
      have : buffer_capacity_one.binary_search 1 (f + 1) 0 0 =
          buffer_capacity_one.binary_search 1 f 0 0 := rfl
      rw [this, ih]
  intro fuel
  have h : buffer_capacity_one.get_closest_data_lock_free fuel 1 =
      (match buffer_capacity_one.binary_search 1 fuel 0 0 with
        | .ok idx => .ok (true, to_int idx)
        | .out_of_bounds i => .out_of_bounds i
        | .out_of_fuel => .out_of_fuel) := rfl
  rw [h, hb]

/-- C11 (latest-period extraction), runs of the code. The buffer of capacity 5 holding one
sample with timestamp 1 is non-empty and sorted, and the start 1 lies within its range, but
`get_latest_period_data(1)` never returns: `binary_search(1, 0, 0)` calls itself with the same
arguments. On the wrapped buffer of capacity 3 (array `[40, 20, 30]`, head 0) the start 3.5
makes `binary_search` read `_data[3]`, outside the array; the start 2.6 returns the samples
3.0 and 4.0. -/
theorem C11_latest_period_fails :
    buffer_single.is_empty = false ∧ buffer_single.run_sorted ∧
      buffer_single.ts buffer_single.oldest_at ≤ 1 ∧
      1 ≤ buffer_single.ts buffer_single.newest_at ∧
      (∀ fuel vec0, buffer_single.get_latest_period_data fuel 1 vec0 = .out_of_fuel) ∧
      (∀ fuel vec0, buffer_wrapped.get_latest_period_data (fuel + 2) 35 vec0 =
        .out_of_bounds 3) ∧
      (∀ fuel vec0, buffer_wrapped.get_latest_period_data (fuel + 2) 26 vec0 =
        .ok (true, [some ⟨30, 2⟩, some ⟨40, 3⟩])) := by
  refine ⟨by decide, by decide, by decide, by decide, ?_, fun _ _ => rfl, fun _ _ => rfl⟩
  intro fuel vec0
  unfold get_latest_period_data
  rw [get_closest_single_never_returns]

/-- C13 (`insert_data` terminates), run of the code: the buffer of capacity 7 holding
9, 2, 3, 4, 5, 6, 7 (head 0) is reachable by eight inserts; `insert_data` of a sample with
timestamp 8 does not return, whatever the number of loop iterations allowed: `bubble_sort`
swaps slots 1 and 0, then `comp_at = (0 - 1) % 7 = 1` swaps them back, without end. -/
theorem C13_insert_data_never_returns :
    Reachable 7 buffer_seven ∧ buffer_seven.size = 7 ∧
      ∀ fuel, insert_data fuel buffer_seven ⟨8, 8⟩ = none :=
  ⟨Reachable.of_insert_all
      [⟨1, 0⟩, ⟨2, 1⟩, ⟨3, 2⟩, ⟨4, 3⟩, ⟨5, 4⟩, ⟨6, 5⟩, ⟨7, 6⟩, ⟨9, 7⟩] (DataRingRepo.new 7)
      buffer_seven Reachable.init insert_data_cycles_capacity_7.1,
    rfl, insert_data_cycles_capacity_7.2.2.2⟩

/-- C14 (closest-match lookup terminates), runs of the code: on the buffer of capacity 5
holding one sample with timestamp 1, and on the buffer of capacity 1 holding that sample, both
reachable by one insert, `get_closest_data(1)` gets `low = high = 0`, the test
`low == high - 1` fails and `binary_search` calls itself with `(0, 0)` again: no result is
returned, whatever the recursion depth allowed. -/
theorem C14_closest_never_returns :
    Reachable 5 buffer_single ∧ buffer_single.size = 1 ∧
      (∀ fuel, buffer_single.get_closest_data fuel 1 = .out_of_fuel) ∧
      Reachable 1 buffer_capacity_one ∧
      (∀ fuel, buffer_capacity_one.get_closest_data fuel 1 = .out_of_fuel) := by
  refine ⟨Reachable.of_insert_all [⟨1, 0⟩] (DataRingRepo.new 5) buffer_single Reachable.init
      (by decide : insert_all 1 (DataRingRepo.new 5 : DataRingRepo ℤ) [⟨1, 0⟩] =
        some buffer_single), rfl, ?_,
    Reachable.of_insert_all [⟨1, 0⟩] (DataRingRepo.new 1) buffer_capacity_one Reachable.init
      (by decide : insert_all 1 (DataRingRepo.new 1 : DataRingRepo ℤ) [⟨1, 0⟩] =
        some buffer_capacity_one), ?_⟩
  · intro fuel
    unfold get_closest_data
    rw [get_closest_single_never_returns]
  · intro fuel
    unfold get_closest_data
    rw [get_closest_capacity_one_never_returns]

/-- C15 as amended (construction). Construction has no failure path: for every `max_size`,
zero included, the constructor yields an empty buffer object with `max_size()` equal to the
argument, an array of that many value-initialised slots, `size() = 0`, `is_empty()` true and
`is_full()` false. -/
theorem C15_construction_always_succeeds (max_size : Nat) :
    (DataRingRepo.new max_size : DataRingRepo α).max_size = max_size ∧
      (DataRingRepo.new max_size : DataRingRepo α)._data =
        List.replicate max_size DataPair.empty ∧
      (DataRingRepo.new max_size : DataRingRepo α).size = 0 ∧
      (DataRingRepo.new max_size : DataRingRepo α).is_empty = true ∧
      (DataRingRepo.new max_size : DataRingRepo α).is_full = false ∧
      (DataRingRepo.new max_size : DataRingRepo α).run_samples = [] :=
  ⟨rfl, rfl, rfl, by simp [DataRingRepo.new, is_empty], rfl,
    by simp [DataRingRepo.new, run_samples, run_indices]⟩

/-- Counterexample to C15 as stated: constructing with `max_size = 0` is not rejected; it
yields a buffer object of capacity 0, on which `insert_data` would divide by `_max_size = 0`. -/
theorem C15_counterexample :
    (DataRingRepo.new 0 : DataRingRepo ℤ) = ⟨0, [], 0, -1, false⟩ ∧
      (DataRingRepo.new 0 : DataRingRepo ℤ).max_size = 0 ∧
      (DataRingRepo.new 0 : DataRingRepo ℤ).is_empty = true := by
  decide

/-- In a well-formed, non-empty buffer whose valid run is sorted, the oldest timestamp does not
exceed the newest one. -/
theorem oldest_le_newest_of_sorted (s : DataRingRepo α) (hwf : well_formed s)
    (hsorted : s.run_sorted) (hne : s.is_empty = false) :
    s.ts s.oldest_at ≤ s.ts s.newest_at := by
  have h0 : 0 ≤ s._head_at := by
    unfold is_empty at hne
    exact not_lt.1 (of_decide_eq_false hne)
  obtain ⟨-, hpos, h3⟩ := hwf
  have hnew : s.newest_at = s._head_at.toNat := by
    unfold newest_at to_size_t
    rw [if_pos h0]
  unfold run_sorted run_timestamps run_indices at hsorted
  by_cases hf : s._is_full = true
  · rw [if_pos hf] at h3 hsorted
    obtain ⟨-, hlt, -⟩ := h3
    rw [List.map_map] at hsorted
    have hm := sorted_range_mono s._max_size
      (fun j => s.ts ((s._head_at.toNat + 1 + j) % s._max_size)) hsorted 0 (s._max_size - 1)
      (Nat.zero_le _) (by omega)
    have e1 : s.oldest_at = (s._head_at.toNat + 1 + 0) % s._max_size := by
      unfold oldest_at
      rw [if_pos hf]
      have : s._head_at + 1 = ((s._head_at.toNat + 1 : Nat) : Int) := by omega
      rw [this, to_size_t_ofNat, Nat.add_zero]
    have e2 : (s._head_at.toNat + 1 + (s._max_size - 1)) % s._max_size = s._head_at.toNat := by
      have : s._head_at.toNat + 1 + (s._max_size - 1) = s._head_at.toNat + s._max_size := by
        omega
      rw [this, Nat.add_mod_right, Nat.mod_eq_of_lt (by omega)]
    rw [e1, hnew]
    simp only [e2] at hm
    exact hm
  · rw [if_neg hf] at h3 hsorted
    have hm := sorted_range_mono (s._head_at + 1).toNat (fun i => s.ts i) hsorted 0
      s._head_at.toNat (Nat.zero_le _) (by omega)
    have e1 : s.oldest_at = 0 := by
      unfold oldest_at
      rw [if_neg hf]
    rw [e1, hnew]
    exact hm

/-- The expression `(0 - 1) % n` of `bubble_sort` is the circular predecessor `n - 1` exactly
when the capacity `n` divides `2^64`. -/
theorem predecessor_of_zero_iff (n : Nat) (hn : 1 ≤ n) :
    size_t_sub 0 1 % n = n - 1 ↔ n ∣ SIZE_T_RANGE := by
  have hs : size_t_sub 0 1 = SIZE_T_RANGE - 1 := by
    unfold size_t_sub
    rw [if_neg (by omega), Nat.zero_add]
  have hM : 1 ≤ SIZE_T_RANGE := by unfold SIZE_T_RANGE; omega
  rw [hs]
  constructor
  · intro h
    have hd := Nat.div_add_mod (SIZE_T_RANGE - 1) n
    rw [h] at hd
    refine Dvd.intro ((SIZE_T_RANGE - 1) / n + 1) ?_
    rw [Nat.mul_add, Nat.mul_one]
    generalize n * ((SIZE_T_RANGE - 1) / n) = p at hd
    omega
  · rintro ⟨k, hk⟩
    have hk1 : 1 ≤ k := by
      rcases Nat.eq_zero_or_pos k with h0 | h0
      · rw [h0, Nat.mul_zero] at hk; omega
      · exact h0
    have e : SIZE_T_RANGE - 1 = (n - 1) + n * (k - 1) := by
      have : n * k = n * (k - 1) + n := by
        conv_lhs => rw [show k = (k - 1) + 1 by omega]
        rw [Nat.mul_add, Nat.mul_one]
      generalize n * (k - 1) = p at this
      omega
    rw [e, Nat.add_mul_mod_self_left, Nat.mod_eq_of_lt (by omega)]

/-- C18 (circular predecessor arithmetic), evaluation of the code's expression
`(bubble_at - 1) % _max_size`: for `bubble_at = i + 1` the difference is `i`, but for
`bubble_at = 0` it is `2^64 - 1`, and the remainder is `0` for capacity 3, `1` for capacity 7
and `115` for capacity 500, not the predecessors 2, 6 and 499; for capacity 8 it is 7. -/
theorem C18_predecessor_of_zero :
    (∀ i, size_t_sub (i + 1) 1 = i) ∧ size_t_sub 0 1 = 18446744073709551615 ∧
      size_t_sub 0 1 % 3 = 0 ∧ size_t_sub 0 1 % 7 = 1 ∧ size_t_sub 0 1 % 500 = 115 ∧
      size_t_sub 0 1 % 8 = 7 := by
  refine ⟨fun i => ?_, by decide, by decide, by decide, by decide, by decide⟩
  unfold size_t_sub
  rw [if_pos (by omega), Nat.add_sub_cancel]

/-- C19 (range queries return only valid samples), run of the code: capacity 5 after inserting
1, 2, 3 (valid slots 0, 1, 2, `size() = 3`); `get_period_data(3, 1)` resolves the start to
slot 2 and the end to slot 0, sets `search_end = 5 + 0` and walks the slots 2, 3, 4, 0: it
returns four elements, two of them the null pointers of the unpopulated slots 3 and 4. -/
theorem C19_period_returns_invalid_slots :
    Reachable 5 buffer_three_of_five ∧ buffer_three_of_five.size = 3 ∧
      buffer_three_of_five.run_indices = [0, 1, 2] ∧
      (∀ fuel, buffer_three_of_five.get_closest_data_lock_free (fuel + 2) 3 = .ok (true, 2)) ∧
      (∀ fuel, buffer_three_of_five.get_closest_data_lock_free (fuel + 2) 1 = .ok (true, 0)) ∧
      (∀ fuel vec0, buffer_three_of_five.get_period_data (fuel + 2) 3 1 vec0 =
        .ok (true, [some ⟨3, 2⟩, none, none, some ⟨1, 0⟩])) :=
  ⟨Reachable.of_insert_all [⟨1, 0⟩, ⟨2, 1⟩, ⟨3, 2⟩] (DataRingRepo.new 5) buffer_three_of_five
      Reachable.init (by decide : insert_all 1 (DataRingRepo.new 5 : DataRingRepo ℤ)
        [⟨1, 0⟩, ⟨2, 1⟩, ⟨3, 2⟩] = some buffer_three_of_five),
    rfl, by decide, fun _ => rfl, fun _ => rfl, fun _ _ => rfl⟩

/-- C20 (positional access), run of the code: capacity 5 after inserting 1, 2, 3 (valid slots
0, 1, 2). For `idx = 0, 1, 2` `operator[]` yields the samples 1, 2, 3; for `idx = 3` (and any
larger `idx`) the clamp `min(idx, _size)` selects slot 3, which is not in the valid run and
holds a null pointer, and that pointer is dereferenced. -/
theorem C20_subscript_past_the_run :
    Reachable 5 buffer_three_of_five ∧ buffer_three_of_five.is_empty = false ∧
      buffer_three_of_five.size = 3 ∧ buffer_three_of_five.run_indices = [0, 1, 2] ∧
      buffer_three_of_five.subscript 0 = some ⟨1, 0⟩ ∧
      buffer_three_of_five.subscript 2 = some ⟨3, 2⟩ ∧
      (∀ idx, buffer_three_of_five.subscript_index (idx + 3) = 3) ∧
      3 ∉ buffer_three_of_five.run_indices ∧
      (∀ idx, buffer_three_of_five.subscript (idx + 3) = none) := by
  have hidx : ∀ idx, buffer_three_of_five.subscript_index (idx + 3) = 3 := by
    intro idx
    show min (idx + 3) 3 = 3
    omega
  refine ⟨Reachable.of_insert_all [⟨1, 0⟩, ⟨2, 1⟩, ⟨3, 2⟩] (DataRingRepo.new 5)
      buffer_three_of_five Reachable.init
      (by decide : insert_all 1 (DataRingRepo.new 5 : DataRingRepo ℤ)
        [⟨1, 0⟩, ⟨2, 1⟩, ⟨3, 2⟩] = some buffer_three_of_five),
    by decide, rfl, by decide, by decide, by decide, hidx, by decide, ?_⟩
  intro idx
  unfold subscript
  rw [hidx]
  rfl
/-! ## Inserts into a full buffer of capacity 7 -/

/-- The loop of `bubble_sort` on the buffer 9, 10, 3, 4, 5, 6, 7 (head 1) after the sample 8 has
been stored in slot 2: two swaps bring it to slot 0, and from there `comp_at = (0 - 1) % 7 = 1`
makes the loop swap slots 0 and 1 for ever. -/
theorem bubble_loop_cycles_after_two_swaps :
    ∀ fuel, bubble_loop 7 3 fuel [⟨9, some ⟨9, 7⟩⟩, ⟨10, some ⟨10, 8⟩⟩, ⟨8, some ⟨8, 9⟩⟩,
        ⟨4, some ⟨4, 3⟩⟩, ⟨5, some ⟨5, 4⟩⟩, ⟨6, some ⟨6, 5⟩⟩, (⟨7, some ⟨7, 6⟩⟩ : DataPair ℤ)]
        2 = none := by
  have key : ∀ fuel,
      bubble_loop 7 3 fuel [⟨9, some ⟨9, 7⟩⟩, ⟨8, some ⟨8, 9⟩⟩, ⟨10, some ⟨10, 8⟩⟩,
          ⟨4, some ⟨4, 3⟩⟩, ⟨5, some ⟨5, 4⟩⟩, ⟨6, some ⟨6, 5⟩⟩, (⟨7, some ⟨7, 6⟩⟩ : DataPair ℤ)]
          1 = none ∧
        bubble_loop 7 3 fuel [⟨8, some ⟨8, 9⟩⟩, ⟨9, some ⟨9, 7⟩⟩, ⟨10, some ⟨10, 8⟩⟩,
          ⟨4, some ⟨4, 3⟩⟩, ⟨5, some ⟨5, 4⟩⟩, ⟨6, some ⟨6, 5⟩⟩, (⟨7, some ⟨7, 6⟩⟩ : DataPair ℤ)]
          0 = none := by
    intro fuel
    induction fuel with
    | zero => exact ⟨rfl, rfl⟩
    | succ f ih =>
      refine ⟨Eq.trans ?_ ih.2, Eq.trans ?_ ih.1⟩
      · rfl
      · rfl
  intro fuel
  cases fuel with
  | zero => rfl
  | succ f => exact Eq.trans rfl (key f).1

/-- C5 (overwrite-on-full eviction), run of the code: the buffer of capacity 7 holding
9, 10, 3, 4, 5, 6, 7 (head 1, valid run 3, 4, 5, 6, 7, 9, 10) is full and reachable by nine
inserts. `insert_data` of a sample with timestamp 8, which is not smaller than the oldest
timestamp, stores it in slot 2 over the oldest sample; `bubble_sort` moves it to slot 1 and to
slot 0, and there `comp_at = (0 - 1) % 7 = 1` in `size_t` arithmetic sends it back to slot 1:
the call does not return, whatever the number of loop iterations allowed, so there is no state
after `insert_data` of which the size and the samples could be as stated. -/
theorem C5_insert_on_full_never_returns :
    Reachable 7 buffer_seven_next ∧ buffer_seven_next.is_full = true ∧
      buffer_seven_next.run_sorted ∧
      buffer_seven_next.run_timestamps = [3, 4, 5, 6, 7, 9, 10] ∧
      buffer_seven_next.ts buffer_seven_next.oldest_at ≤ 8 ∧
      (∀ fuel, insert_data fuel buffer_seven_next ⟨8, 9⟩ = none) ∧
      ¬ ∃ fuel s1, insert_data fuel buffer_seven_next ⟨8, 9⟩ = some s1 ∧ s1.size = 7 := by
  have hnone : ∀ fuel, insert_data fuel buffer_seven_next ⟨8, 9⟩ = none := by
    intro fuel
    have h : insert_data fuel buffer_seven_next ⟨8, 9⟩ =
        (bubble_loop 7 3 fuel [⟨9, some ⟨9, 7⟩⟩, ⟨10, some ⟨10, 8⟩⟩, ⟨8, some ⟨8, 9⟩⟩,
          ⟨4, some ⟨4, 3⟩⟩, ⟨5, some ⟨5, 4⟩⟩, ⟨6, some ⟨6, 5⟩⟩, (⟨7, some ⟨7, 6⟩⟩ : DataPair ℤ)]
          2).map (fun d => ⟨7, d, 7, 2, true⟩) := rfl
    rw [h, bubble_loop_cycles_after_two_swaps fuel]
    rfl
  refine ⟨Reachable.of_insert_all
      [⟨1, 0⟩, ⟨2, 1⟩, ⟨3, 2⟩, ⟨4, 3⟩, ⟨5, 4⟩, ⟨6, 5⟩, ⟨7, 6⟩, ⟨9, 7⟩, ⟨10, 8⟩]
      (DataRingRepo.new 7) buffer_seven_next Reachable.init
      (by decide : insert_all 1 (DataRingRepo.new 7 : DataRingRepo ℤ)
        [⟨1, 0⟩, ⟨2, 1⟩, ⟨3, 2⟩, ⟨4, 3⟩, ⟨5, 4⟩, ⟨6, 5⟩, ⟨7, 6⟩, ⟨9, 7⟩, ⟨10, 8⟩] =
          some buffer_seven_next),
    rfl, by decide, by decide, by decide, hnone, ?_⟩
  rintro ⟨fuel, s1, h, -⟩
  rw [hnone fuel] at h
  cases h

/-- C6 (counter invariant), run of the code: on a freshly constructed buffer of capacity 7 the
eight calls of `insert_data` for the timestamps 1, 2, 3, 4, 5, 6, 7, 9 return and leave the
counters as stated (size 7, full, head `7 mod 7 = 0`); the ninth call, for the timestamp 8, does
not return, whatever the number of loop iterations allowed: the nine calls never complete, and
there are no counters after `k = 9` calls. The same holds on the freshly cleared buffer. -/
theorem C6_ninth_insert_never_returns :
    insert_all 1 (DataRingRepo.new 7 : DataRingRepo ℤ)
        [⟨1, 0⟩, ⟨2, 1⟩, ⟨3, 2⟩, ⟨4, 3⟩, ⟨5, 4⟩, ⟨6, 5⟩, ⟨7, 6⟩, ⟨9, 7⟩] = some buffer_seven ∧
      buffer_seven.size = min 8 7 ∧ buffer_seven.is_full = true ∧
      buffer_seven._head_at = ((8 - 1) % 7 : Nat) ∧
      (∀ fuel, insert_all fuel (DataRingRepo.new 7 : DataRingRepo ℤ)
        [⟨1, 0⟩, ⟨2, 1⟩, ⟨3, 2⟩, ⟨4, 3⟩, ⟨5, 4⟩, ⟨6, 5⟩, ⟨7, 6⟩, ⟨9, 7⟩, ⟨8, 8⟩] = none) ∧
      (∀ fuel, insert_all fuel (buffer_seven.clear)
        [⟨1, 0⟩, ⟨2, 1⟩, ⟨3, 2⟩, ⟨4, 3⟩, ⟨5, 4⟩, ⟨6, 5⟩, ⟨7, 6⟩, ⟨9, 7⟩, ⟨8, 8⟩] = none) := by
  refine ⟨by decide, by decide, rfl, by decide, ?_, ?_⟩
  · intro fuel
    cases fuel with
    | zero => rfl
    | succ f =>
      have h : insert_all (f + 1) (DataRingRepo.new 7 : DataRingRepo ℤ)
          [⟨1, 0⟩, ⟨2, 1⟩, ⟨3, 2⟩, ⟨4, 3⟩, ⟨5, 4⟩, ⟨6, 5⟩, ⟨7, 6⟩, ⟨9, 7⟩, ⟨8, 8⟩] =
          insert_all (f + 1) buffer_seven [⟨8, 8⟩] := rfl
      rw [h]
      simp only [insert_all]
      rw [insert_data_cycles_capacity_7.2.2.2 (f + 1)]
  · intro fuel
    cases fuel with
    | zero => rfl
    | succ f =>
      have h : insert_all (f + 1) (buffer_seven.clear)
          [⟨1, 0⟩, ⟨2, 1⟩, ⟨3, 2⟩, ⟨4, 3⟩, ⟨5, 4⟩, ⟨6, 5⟩, ⟨7, 6⟩, ⟨9, 7⟩, ⟨8, 8⟩] =
          insert_all (f + 1) buffer_seven [⟨8, 8⟩] := rfl
      rw [h]
      simp only [insert_all]
      rw [insert_data_cycles_capacity_7.2.2.2 (f + 1)]


end DataRingRepo

end Proofs
